import Mathlib

/-!
Shallow embedding of the column-normalisation and window-aggregation core of
src/app.py (MA Enrollment Intelligence Dashboard).

A pandas DataFrame is modelled as a list of column labels plus a list of rows,
each row a list of cells.  All string primitives used by the Python code
(strip, lower, endswith, str slicing, decimal formatting) are re-implemented
over List Char so that every definition is kernel-executable.
-/

namespace MA

/-- A cell of a table: raw string, integer, first-of-month date stamp, or a
missing value (pandas NaN). -/
inductive Cell where
  | s (v : String)
  | i (v : Int)
  | date (y m d : Nat)
  | na
deriving DecidableEq

/-- A DataFrame: ordered column labels and rows of cells. -/
structure DF where
  cols : List String
  rows : List (List Cell)
deriving DecidableEq

/-- Rows all have exactly one cell per column label. -/
def WF (df : DF) : Prop := ∀ r ∈ df.rows, r.length = df.cols.length

instance (df : DF) : Decidable (WF df) := by
  unfold WF; exact List.decidableBAll _ _

/- ── string primitives (kernel-computable replacements for Python str ops) ── -/

/-- Python str.strip: drop leading and trailing whitespace. -/
def strip (s : String) : String :=
  ⟨((s.data.dropWhile Char.isWhitespace).reverse.dropWhile Char.isWhitespace).reverse⟩

/-- Python str.lower. -/
def lowerS (s : String) : String := ⟨s.data.map Char.toLower⟩

/-- Boolean list-prefix test. -/
def startsWithL : List Char → List Char → Bool
  | [], _ => true
  | _ :: _, [] => false
  | a :: as, b :: bs => a == b && startsWithL as bs

/-- Python str.endswith. -/
def endsWithS (s suf : String) : Bool := startsWithL suf.data.reverse s.data.reverse

/-- Boolean substring-occurrence test (Python "needle in haystack"). -/
def occursIn (needle : List Char) : List Char → Bool
  | [] => startsWithL needle []
  | c :: t => startsWithL needle (c :: t) || occursIn needle t

/-- Python "needle in hay" on strings. -/
def containsSub (needle hay : String) : Bool := occursIn needle.data hay.data

/-- Drop the last n characters. -/
def dropRightS (s : String) (n : Nat) : String := ⟨s.data.take (s.data.length - n)⟩

/-- Fuel-indexed base-10 digit list (least significant first). -/
def natDigitsFuel : Nat → Nat → List Nat
  | 0, _ => []
  | _ + 1, 0 => []
  | fuel + 1, n + 1 => ((n + 1) % 10) :: natDigitsFuel fuel ((n + 1) / 10)

/-- Base-10 digits of n, least significant first (n itself is enough fuel). -/
def natDigits (n : Nat) : List Nat := natDigitsFuel n n

/-- Decimal representation of a natural number, as produced by a Python
f-string.  Defined structurally so the kernel can evaluate it. -/
def natRepr (n : Nat) : String :=
  if n = 0 then "0" else ⟨((natDigits n).map Nat.digitChar).reverse⟩

/-- Python str(int) including the sign. -/
def intRepr (v : Int) : String :=
  if v < 0 then "-" ++ natRepr v.natAbs else natRepr v.natAbs

/-- Replace every occurrence of a single character (the only patterns the
source passes to str.replace: "," and "*"). -/
def replaceChar (l : List Char) (pat : Char) (rep : List Char) : List Char :=
  (l.map (fun c => if c = pat then rep else [c])).flatten

/- ── small dictionary / membership helpers (Python dict and "in") ── -/

/-- Boolean membership of a string in a list. -/
def memB (k : String) : List String → Bool
  | [] => false
  | c :: cs => k == c || memB k cs

/-- Lookup in an association list (Python dict.get). -/
def alookup {α : Type} : List (String × α) → String → Option α
  | [], _ => none
  | (k', v) :: t, k => if k' = k then some v else alookup t k

/-- Counter-dictionary lookup. -/
def getA (m : List (String × Nat)) (k : String) : Option Nat := alookup m k

/-- Counter-dictionary update (Python d[k] = v). -/
def setA : List (String × Nat) → String → Nat → List (String × Nat)
  | [], k, v => [(k, v)]
  | (k', v') :: t, k, v => if k' = k then (k, v) :: t else (k', v') :: setA t k v

/- ── column normalisation (src/app.py: _dedup_columns, _normalise_cols) ── -/

/-- Step 2 of _dedup_columns: scan labels in order keeping a counter per raw
label; the first occurrence is kept, later ones get an "_dupN" suffix. -/
def dedupGo : List (String × Nat) → List String → List String
  | _, [] => []
  | seen, c :: cs =>
    match getA seen c with
    | some n => (c ++ "_dup" ++ natRepr (n + 1)) :: dedupGo (setA seen c (n + 1)) cs
    | none => c :: dedupGo (setA seen c 1) cs

/-- Step 1 of _dedup_columns: strip whitespace from every label. -/
def stripLabels (cols : List String) : List String := cols.map strip

/-- _dedup_columns on the label list. -/
def dedupLabels (cols : List String) : List String := dedupGo [] (stripLabels cols)

/-- _dedup_columns: fix duplicate column names; rows untouched. -/
def dedupColumns (df : DF) : DF := { cols := dedupLabels df.cols, rows := df.rows }

/-- An alias map: lower-cased raw header text to canonical field name
(Python dict; keys are pairwise distinct in both concrete maps below). -/
abbrev AliasMap := List (String × String)

/-- CPSC_COL_ALIASES from src/app.py. -/
def CPSC_COL_ALIASES : AliasMap := [
  ("contract_number",        "Contract_ID"),
  ("contract number",        "Contract_ID"),
  ("h_number",               "Contract_ID"),
  ("h number",               "Contract_ID"),
  ("plan_id",                "Plan_ID"),
  ("plan id",                "Plan_ID"),
  ("plan_identifier",        "Plan_ID"),
  ("segment_id",             "Segment_ID"),
  ("segment id",             "Segment_ID"),
  ("organization_name",      "Org_Name"),
  ("organization name",      "Org_Name"),
  ("organization_marketing_name", "Org_Name"),
  ("organization marketing name", "Org_Name"),
  ("contract_name",          "Org_Name"),
  ("contract name",          "Org_Name"),
  ("state",                  "State"),
  ("state_code",             "State"),
  ("state code",             "State"),
  ("ssa_state_code",         "State_SSA"),
  ("county",                 "County"),
  ("county_name",            "County"),
  ("county name",            "County"),
  ("ssa_county_code",        "County_SSA"),
  ("ssa_state_county_code",  "SSA_Code"),
  ("ssa state county code",  "SSA_Code"),
  ("fips_state_county_code", "FIPS"),
  ("plan_type",              "Plan_Type"),
  ("plan type",              "Plan_Type"),
  ("type_of_medicare_health_plan", "Plan_Type"),
  ("type of medicare health plan", "Plan_Type"),
  ("enrollment",             "Enrollment"),
  ("total_enrollment",       "Enrollment"),
  ("total enrollment",       "Enrollment"),
  ("enrolled",               "Enrollment")]

/-- PLANDIR_COL_ALIASES from src/app.py. -/
def PLANDIR_COL_ALIASES : AliasMap := [
  ("contract_number",        "Contract_ID"),
  ("contract number",        "Contract_ID"),
  ("h_number",               "Contract_ID"),
  ("h number",               "Contract_ID"),
  ("contract_id",            "Contract_ID"),
  ("organization_name",      "Org_Name"),
  ("organization name",      "Org_Name"),
  ("contract_name",          "Org_Name"),
  ("contract name",          "Org_Name"),
  ("parent_organization",    "Parent_Org"),
  ("parent organization",    "Parent_Org"),
  ("parent_org",             "Parent_Org"),
  ("parent org",             "Parent_Org"),
  ("plan_type",              "Plan_Type"),
  ("plan type",              "Plan_Type")]

/-- Strip a "_dup2" … "_dup9" suffix from a lookup key: the source iterates
suffix_n over range(2, 10) and strips the first suffix that matches. -/
def stripDupSuffix (key : String) : String :=
  match (List.range' 2 8).find? (fun n => endsWithS key ("_dup" ++ natRepr n)) with
  | some n => dropRightS key ("_dup" ++ natRepr n).data.length
  | none => key

/-- Alias lookup for one column label: exact lower-cased key first, then the
suffix-stripped key (alias_map.get(key) or alias_map.get(base_key); both
concrete maps only have non-empty targets, so Python falsiness of "" never
fires). -/
def aliasTarget (m : AliasMap) (c : String) : Option String :=
  let key := lowerS (strip c)
  match alookup m key with
  | some t => some t
  | none => alookup m (stripDupSuffix key)

/-- The rename-dict construction loop of _normalise_cols: returns the rename
entries (in insertion order) and the set of targets already claimed; only the
first column that maps to a given alias target wins. -/
def buildRenameGo (m : AliasMap) :
    List (String × String) → List String → List String →
    List (String × String) × List String
  | ren, seen, [] => (ren, seen)
  | ren, seen, c :: cs =>
    match aliasTarget m c with
    | some t =>
      if memB t seen then buildRenameGo m ren seen cs
      else buildRenameGo m (ren ++ [(c, t)]) (t :: seen) cs
    | none => buildRenameGo m ren seen cs

/-- The rename dict of _normalise_cols. -/
def buildRename (m : AliasMap) (cols : List String) : List (String × String) :=
  (buildRenameGo m [] [] cols).1

/-- df.rename(columns=ren): replace each label by its image when present. -/
def applyRename (ren : List (String × String)) (cols : List String) : List String :=
  cols.map (fun c => (alookup ren c).getD c)

/-- df.columns.duplicated().any(). -/
def hasDup : List String → Bool
  | [] => false
  | c :: cs => memB c cs || hasDup cs

/-- The final safety net of _normalise_cols: suffix later duplicates with
"_2", "_3", … . -/
def safetyGo : List (String × Nat) → List String → List String
  | _, [] => []
  | seen, c :: cs =>
    match getA seen c with
    | some n => (c ++ "_" ++ natRepr (n + 1)) :: safetyGo (setA seen c (n + 1)) cs
    | none => c :: safetyGo (setA seen c 1) cs

/-- _normalise_cols on the label list: dedup raw names, rename via the alias
map with first-writer-wins, then the defensive deduplication pass. -/
def normaliseLabels (m : AliasMap) (cols : List String) : List String :=
  let d := dedupLabels cols
  let r := applyRename (buildRename m d) d
  if hasDup r then safetyGo [] r else r

/-- _normalise_cols: only column labels change, rows are untouched. -/
def normaliseCols (df : DF) (m : AliasMap) : DF :=
  { cols := normaliseLabels m df.cols, rows := df.rows }

/- ── generic column access and assignment (pandas getitem / setitem) ── -/

/-- Index of the first column with a given label. -/
def firstIdx : List String → String → Option Nat
  | [], _ => none
  | c :: cs, k => if c = k then some 0 else (firstIdx cs k).map (· + 1)

/-- Value of the (first) column with label k in a row; the model resolves
duplicate labels to the first occurrence (the pipeline only reaches these
operations on duplicate-free frames). -/
def getByLabel (cols : List String) (r : List Cell) (k : String) : Cell :=
  match firstIdx cols k with
  | some i => (r.get? i).getD Cell.na
  | none => Cell.na

/-- df[k] = series: overwrite the column if the label exists, else append a
new column at the right edge; the new cell of each row is computed from the
row itself. -/
def setColWith (df : DF) (k : String) (f : List Cell → Cell) : DF :=
  match firstIdx df.cols k with
  | some i => { cols := df.cols, rows := df.rows.map (fun r => r.set i (f r)) }
  | none => { cols := df.cols ++ [k], rows := df.rows.map (fun r => r ++ [f r]) }

/-- df[sel]: project onto the given labels, in the given order. -/
def selectColsDF (sel : List String) (df : DF) : DF :=
  { cols := sel, rows := df.rows.map (fun r => sel.map (getByLabel df.cols r)) }

/- ── value cleanser (src/app.py: _clean_enrollment) ── -/

/-- Python str() of a cell, as produced by .astype(str).  NaN prints as
"nan", a Timestamp as an ISO date-time. -/
def pyStrCell : Cell → String
  | .s v => v
  | .i v => intRepr v
  | .date y m d => natRepr y ++ "-" ++ natRepr m ++ "-" ++ natRepr d ++ " 00:00:00"
  | .na => "nan"

/-- Digit-string parser: the integer-literal fragment of pd.to_numeric.
Strings that are not optionally-signed digit runs coerce to none (NaN); the
claims only exercise integer-valued enrollment cells. -/
def parseNatDigits : List Char → Option Nat
  | [] => none
  | l =>
    if l.all Char.isDigit then
      some (l.foldl (fun a c => a * 10 + (c.toNat - 48)) 0)
    else none

/-- pd.to_numeric(s, errors="coerce") on the integer-literal fragment. -/
def toNumericInt (s : String) : Option Int :=
  match s.data with
  | '-' :: rest => (parseNatDigits rest).map (fun n => -(n : Int))
  | '+' :: rest => (parseNatDigits rest).map (fun n => (n : Int))
  | l => (parseNatDigits l).map (fun n => (n : Int))

/-- The per-cell coercion chain of _clean_enrollment: astype(str), drop the
thousands separators, rewrite the masking marker "*" to "0", strip, parse,
and fill unparseable values with 0. -/
def cleanCellVal (c : Cell) : Int :=
  let s := strip ⟨replaceChar (replaceChar (pyStrCell c).data ',' []) '*' ['0']⟩
  (toNumericInt s).getD 0

/-- The integer enrollment value of a row (0 if the cell is not an int). -/
def enrollVal (cols : List String) (r : List Cell) : Int :=
  match getByLabel cols r "Enrollment" with
  | .i v => v
  | _ => 0

/-- _clean_enrollment: locate or synthesize the Enrollment column, coerce it
to int, and keep only rows with enrollment strictly greater than 0. -/
def cleanEnrollment (df : DF) : DF :=
  let df1 :=
    if memB "Enrollment" df.cols then df
    else
      match df.cols.find? (fun c => containsSub "enroll" (lowerS c)) with
      | some cand =>
        { cols := df.cols.map (fun c => if c = cand then "Enrollment" else c),
          rows := df.rows }
      | none => { cols := df.cols ++ ["Enrollment"], rows := df.rows.map (· ++ [Cell.i 0]) }
  let df2 := setColWith df1 "Enrollment"
    (fun r => Cell.i (cleanCellVal (getByLabel df1.cols r "Enrollment")))
  { cols := df2.cols, rows := df2.rows.filter (fun r => decide (0 < enrollVal df2.cols r)) }

/- ── period tagger and per-month normalisation (normalise_cpsc) ── -/

/-- MONTH_NAMES from src/app.py ("" outside 1..12; the callers only pass
calendar months). -/
def MONTH_NAMES : Nat → String
  | 1 => "january" | 2 => "february" | 3 => "march" | 4 => "april"
  | 5 => "may" | 6 => "june" | 7 => "july" | 8 => "august"
  | 9 => "september" | 10 => "october" | 11 => "november" | 12 => "december"
  | _ => ""

/-- MONTH_NAMES[month].title()[:3]. -/
def monthLabel3 (m : Nat) : String :=
  match (MONTH_NAMES m).data with
  | [] => ""
  | c :: t => ⟨(c.toUpper :: t).take 3⟩

/-- The canonical output columns every monthly frame must have
(CPSC_OUTPUT_COLS from src/app.py). -/
def CPSC_OUTPUT_COLS : List String :=
  ["Contract_ID", "Plan_ID", "Segment_ID", "Org_Name",
   "State", "County", "Plan_Type", "Enrollment",
   "Year", "Month", "Period", "Period_Label"]

/-- Python str.zfill(5) on an unsigned string. -/
def zfill5 (s : String) : String :=
  if 5 ≤ s.data.length then s else ⟨List.replicate (5 - s.data.length) '0' ++ s.data⟩

/-- The SSA_Code-to-State derivation of normalise_cpsc. -/
def deriveState (df : DF) : DF :=
  let df1 := setColWith df "SSA_Code"
    (fun r => Cell.s (zfill5 (pyStrCell (getByLabel df.cols r "SSA_Code"))))
  setColWith df1 "State"
    (fun r => Cell.s ⟨(pyStrCell (getByLabel df1.cols r "SSA_Code")).data.take 2⟩)

/-- The guarantee loop of normalise_cpsc / the alignment loop of
load_enrollment: append each listed column, with its default value, when it
is absent. -/
def addColsDefault (dflt : String → Cell) (names : List String) (df : DF) : DF :=
  names.foldl
    (fun acc col =>
      if memB col acc.cols then acc
      else { cols := acc.cols ++ [col], rows := acc.rows.map (· ++ [dflt col]) })
    df

/-- normalise_cpsc: normalise the columns, clean the enrollment measure,
derive State from SSA_Code when needed, guarantee the id columns, stamp the
period, and select the canonical columns that are present. -/
def normaliseCpsc (df : DF) (year month : Nat) : DF :=
  let d2 := cleanEnrollment (normaliseCols df CPSC_COL_ALIASES)
  let d3 :=
    if !memB "State" d2.cols && memB "SSA_Code" d2.cols then deriveState d2 else d2
  let d4 := addColsDefault (fun _ => Cell.s "")
    ["State", "County", "Contract_ID", "Plan_ID", "Plan_Type", "Org_Name", "Segment_ID"] d3
  let d5 := setColWith d4 "Year" (fun _ => Cell.i year)
  let d6 := setColWith d5 "Month" (fun _ => Cell.i month)
  let d7 := setColWith d6 "Period" (fun _ => Cell.date year month 1)
  let d8 := setColWith d7 "Period_Label"
    (fun _ => Cell.s (monthLabel3 month ++ " " ++ natRepr year))
  selectColsDF (CPSC_OUTPUT_COLS.filter (fun c => memB c d8.cols)) d8

/- ── window aggregator (src/app.py: _load_one_cpsc, load_enrollment) ── -/

/-- The environment of one period: the year and month, whether a local file
path exists, what reading that file yields (none on failure), and what the
live HTTP fallback yields. -/
structure PeriodSrc where
  year : Nat
  month : Nat
  localExists : Bool
  localRead : Option DF
  live : Option DF
deriving DecidableEq

/-- _load_one_cpsc: local pre-fetched file first (accepted only when it reads
and has more than 10 rows), else the live HTTP fallback. -/
def loadOneCpsc (p : PeriodSrc) : Option DF :=
  if p.localExists then
    match p.localRead with
    | some df => if 10 < df.rows.length then some df else p.live
    | none => p.live
  else p.live

/-- The defaults of the alignment loop in load_enrollment. -/
def alignDefault (col : String) : Cell :=
  if col = "Enrollment" then Cell.i 0 else Cell.s ""

/-- Alignment of one accepted frame: synthesize the missing canonical
columns, then reindex to the canonical order. -/
def alignOne (f : DF) : DF :=
  selectColsDF CPSC_OUTPUT_COLS (addColsDefault alignDefault CPSC_OUTPUT_COLS f)

/-- pd.concat of the aligned frames (all carry the canonical columns). -/
def concatStage (frames : List DF) : DF :=
  { cols := CPSC_OUTPUT_COLS, rows := (frames.map (fun f => (alignOne f).rows)).flatten }

/-- The per-period loop of load_enrollment: accept a frame when the raw load
succeeds with more than 10 rows and normalisation leaves no duplicate
columns; count it as local exactly when a local path exists.  pandas
exceptions inside normalise_cpsc are modelled as total functions. -/
def loadEnrollmentGo : List PeriodSrc → List DF → Nat → Nat → List DF × Nat × Nat
  | [], frames, lc, vc => (frames, lc, vc)
  | p :: ps, frames, lc, vc =>
    match loadOneCpsc p with
    | some raw =>
      if 10 < raw.rows.length then
        let normed := normaliseCpsc raw p.year p.month
        if hasDup normed.cols then loadEnrollmentGo ps frames lc vc
        else if p.localExists then loadEnrollmentGo ps (frames ++ [normed]) (lc + 1) vc
        else loadEnrollmentGo ps (frames ++ [normed]) lc (vc + 1)
      else loadEnrollmentGo ps frames lc vc
    | none => loadEnrollmentGo ps frames lc vc

/-- load_enrollment: the resulting table plus the (local_count, live_count)
provenance pair it exposes; the empty-window branch returns a bare empty
frame whose unset attrs read back as zero counts. -/
def loadEnrollment (ps : List PeriodSrc) : DF × Nat × Nat :=
  let st := loadEnrollmentGo ps [] 0 0
  if st.1.isEmpty then (⟨[], []⟩, st.2.1, st.2.2)
  else (concatStage st.1, st.2.1, st.2.2)

/- ── reference merger (src/app.py: add_parent_org) ── -/

/-- Boolean membership of a cell in a list of cells. -/
def memCell (k : Cell) : List Cell → Bool
  | [] => false
  | c :: cs => decide (k = c) || memCell k cs

/-- drop_duplicates("Contract_ID") on the two-column reference selection:
keep the first row for each key. -/
def dropDupGo (cols : List String) (key : String) (seen : List Cell) :
    List (List Cell) → List (List Cell)
  | [] => []
  | r :: rs =>
    let k := getByLabel cols r key
    if memCell k seen then dropDupGo cols key seen rs
    else r :: dropDupGo cols key (k :: seen) rs

/-- plandir[["Contract_ID","Parent_Org"]].drop_duplicates("Contract_ID"). -/
def refPairs (plandir : DF) : List (List Cell) :=
  dropDupGo ["Contract_ID", "Parent_Org"] "Contract_ID" []
    (selectColsDF ["Contract_ID", "Parent_Org"] plandir).rows

/-- The left merge on Contract_ID: every enrollment row is paired with each
matching reference row (an unmatched row gets NaN); the model assumes the
enrollment frame does not already carry a Parent_Org column, mirroring the
working table this function receives. -/
def leftMergeParent (enroll : DF) (ded : List (List Cell)) : DF :=
  { cols := enroll.cols ++ ["Parent_Org"],
    rows := (enroll.rows.map (fun r =>
      let k := getByLabel enroll.cols r "Contract_ID"
      let ms := ded.filter
        (fun rr => decide (getByLabel ["Contract_ID", "Parent_Org"] rr "Contract_ID" = k))
      if ms.isEmpty then [r ++ [Cell.na]]
      else ms.map (fun rr =>
        r ++ [getByLabel ["Contract_ID", "Parent_Org"] rr "Parent_Org"]))).flatten }

/-- merged["Parent_Org"].fillna("Independent / Other"). -/
def fillParentNa (df : DF) : DF :=
  setColWith df "Parent_Org" (fun r =>
    match getByLabel df.cols r "Parent_Org" with
    | .na => Cell.s "Independent / Other"
    | v => v)

/-- add_parent_org: fall back to each row's own Org_Name when the reference
table is empty or lacks the join key; otherwise left-join the deduplicated
reference and fill unmatched rows with the sentinel label. -/
def addParentOrg (enroll plandir : DF) : DF :=
  if plandir.rows.isEmpty || !memB "Contract_ID" plandir.cols then
    setColWith enroll "Parent_Org" (fun r =>
      if memB "Org_Name" enroll.cols then getByLabel enroll.cols r "Org_Name"
      else Cell.s "Independent/Other")
  else
    fillParentNa (leftMergeParent enroll (refPairs plandir))

/- ── auxiliary predicates used by the statements below ── -/

/-- Numeric value of a least-significant-first base-10 digit list. -/
def digitsVal : List Nat → Nat
  | [] => 0
  | d :: t => d + 10 * digitsVal t

/-- Does the string end with "_dup" immediately followed by one or more
digits?  Labels of this shape are exactly the ones that can collide with the
fresh "_dupN" names handed out by _dedup_columns. -/
def endsDupNum (x : String) : Bool :=
  let r := x.data.reverse
  let ds := r.takeWhile Char.isDigit
  !ds.isEmpty && startsWithL ['p', 'u', 'd', '_'] (r.drop ds.length)

/-- One period of the window fails to contribute a frame: no readable source,
too few rows, or duplicate columns left after normalisation. -/
def periodFailsB (p : PeriodSrc) : Bool :=
  match loadOneCpsc p with
  | none => true
  | some raw =>
    decide (raw.rows.length ≤ 10) || hasDup (normaliseCpsc raw p.year p.month).cols

/- ══════════════════════════ theorems ══════════════════════════ -/

/- ── basic lemmas about the dictionary and membership helpers ── -/

theorem memB_iff {k : String} {l : List String} : memB k l = true ↔ k ∈ l := by
  induction l with
  | nil => simp [memB]
  | cons c cs ih => simp [memB, ih, String.ext_iff]

theorem memB_eq_false {k : String} {l : List String} : memB k l = false ↔ k ∉ l := by
  rw [← memB_iff]; cases memB k l <;> simp

theorem getA_setA_self (m : List (String × Nat)) (k : String) (v : Nat) :
    getA (setA m k v) k = some v := by
  induction m with
  | nil => simp [getA, setA, alookup]
  | cons p t ih =>
    obtain ⟨k', v'⟩ := p
    by_cases h : k' = k <;> simp [getA, setA, alookup, h] at ih ⊢ <;> simp [ih]

theorem getA_setA_other (m : List (String × Nat)) (k k' : String) (v : Nat)
    (h : k' ≠ k) : getA (setA m k v) k' = getA m k' := by
  have h2 : k ≠ k' := Ne.symm h
  induction m with
  | nil => simp [getA, setA, alookup, h2]
  | cons p t ih =>
    obtain ⟨k₀, v₀⟩ := p
    by_cases h₀ : k₀ = k
    · subst h₀
      simp [getA, setA, alookup, h2]
    · simp only [setA, if_neg h₀, getA, alookup]
      by_cases h₁ : k₀ = k'
      · simp [h₁]
      · simp only [if_neg h₁]
        exact ih

theorem alookup_mem {α : Type} {l : List (String × α)} {k : String} {v : α}
    (h : alookup l k = some v) : (k, v) ∈ l := by
  induction l with
  | nil => simp [alookup] at h
  | cons p t ih =>
    obtain ⟨k', v'⟩ := p
    by_cases hk : k' = k
    · subst hk; simp [alookup] at h; simp [h]
    · simp [alookup, hk] at h; simp [ih h]

theorem alookup_eq_none {α : Type} {l : List (String × α)} {k : String}
    (h : ∀ p ∈ l, p.1 ≠ k) : alookup l k = none := by
  induction l with
  | nil => rfl
  | cons p t ih =>
    obtain ⟨k', v'⟩ := p
    have hk : k' ≠ k := h (k', v') (by simp)
    simp [alookup, hk]
    exact ih (fun q hq => h q (by simp [hq]))

theorem alookup_of_mem_nodup {α : Type} {l : List (String × α)} {k : String} {v : α}
    (hm : (k, v) ∈ l) (hn : (l.map Prod.fst).Nodup) : alookup l k = some v := by
  induction l with
  | nil => simp at hm
  | cons p t ih =>
    obtain ⟨k', v'⟩ := p
    simp only [List.map_cons, List.nodup_cons] at hn
    rcases List.mem_cons.mp hm with h | h
    · obtain ⟨h₁, h₂⟩ := Prod.mk.injEq .. ▸ h.symm
      simp [alookup, h₁.symm, h₂]
    · have hk : k' ≠ k := by
        intro he; subst he
        exact hn.1 (by simpa using ⟨v, h⟩)
      simp [alookup, hk, ih h hn.2]

theorem firstIdx_get {l : List String} {k : String} {i : Nat}
    (h : firstIdx l k = some i) : l.get? i = some k := by
  induction l generalizing i with
  | nil => simp [firstIdx] at h
  | cons c cs ih =>
    by_cases hc : c = k
    · subst hc; simp [firstIdx] at h; simp [← h]
    · simp [firstIdx, hc] at h
      obtain ⟨j, hj, rfl⟩ := h
      simpa using ih hj

theorem firstIdx_eq_none {l : List String} {k : String} :
    firstIdx l k = none ↔ k ∉ l := by
  induction l with
  | nil => simp [firstIdx]
  | cons c cs ih =>
    by_cases hc : c = k
    · subst hc; simp [firstIdx]
    · have hk : k ≠ c := fun he => hc he.symm
      simp [firstIdx, hc, ih, hk]

theorem firstIdx_of_mem {l : List String} {k : String} (h : k ∈ l) :
    ∃ i, firstIdx l k = some i := by
  cases hf : firstIdx l k with
  | none => exact absurd h (firstIdx_eq_none.mp hf)
  | some i => exact ⟨i, rfl⟩

theorem firstIdx_append_right {l₁ l₂ : List String} {k : String} (h : k ∉ l₁) :
    firstIdx (l₁ ++ l₂) k = (firstIdx l₂ k).map (· + l₁.length) := by
  induction l₁ with
  | nil => simp
  | cons c cs ih =>
    have hc : c ≠ k := fun he => h (by simp [he])
    have hk : k ∉ cs := fun hm => h (by simp [hm])
    show firstIdx (c :: (cs ++ l₂)) k = _
    rw [show firstIdx (c :: (cs ++ l₂)) k = (firstIdx (cs ++ l₂) k).map (· + 1) by
      simp [firstIdx, hc], ih hk]
    cases firstIdx l₂ k with
    | none => rfl
    | some i =>
      simp [Nat.add_assoc]

theorem hasDup_eq_false_iff {l : List String} : hasDup l = false ↔ l.Nodup := by
  induction l with
  | nil => simp [hasDup]
  | cons c cs ih =>
    simp [hasDup, Bool.or_eq_false_iff, ih, memB_eq_false]

/- ── facts about the decimal representation natRepr ── -/

theorem natDigitsFuel_lt_ten {fuel n : Nat} : ∀ d ∈ natDigitsFuel fuel n, d < 10 := by
  induction fuel generalizing n with
  | zero => simp [natDigitsFuel]
  | succ f ih =>
    cases n with
    | zero => simp [natDigitsFuel]
    | succ m =>
      simp only [natDigitsFuel, List.mem_cons]
      rintro d (rfl | hd)
      · exact Nat.mod_lt _ (by omega)
      · exact ih d hd

theorem digitsVal_natDigitsFuel {fuel n : Nat} (h : n ≤ fuel) :
    digitsVal (natDigitsFuel fuel n) = n := by
  induction fuel generalizing n with
  | zero =>
    have : n = 0 := by omega
    subst this; simp [natDigitsFuel, digitsVal]
  | succ f ih =>
    cases n with
    | zero => simp [natDigitsFuel, digitsVal]
    | succ m =>
      have hlt := Nat.div_lt_self (Nat.succ_pos m) (show 1 < 10 by omega)
      have hle : (m + 1) / 10 ≤ f := by omega
      simp only [natDigitsFuel, digitsVal, ih hle]
      exact Nat.mod_add_div (m + 1) 10

theorem digitsVal_natDigits (n : Nat) : digitsVal (natDigits n) = n :=
  digitsVal_natDigitsFuel (Nat.le_refl n)

theorem natDigits_lt_ten {n : Nat} : ∀ d ∈ natDigits n, d < 10 := natDigitsFuel_lt_ten

theorem natDigits_ne_nil {n : Nat} (h : n ≠ 0) : natDigits n ≠ [] := by
  obtain ⟨m, rfl⟩ := Nat.exists_eq_succ_of_ne_zero h
  simp [natDigits, natDigitsFuel]

theorem digitChar_isDigit : ∀ d : Nat, d < 10 → (Nat.digitChar d).isDigit = true := by
  decide

theorem digitChar_injOn :
    ∀ d : Nat, d < 10 → ∀ e : Nat, e < 10 → Nat.digitChar d = Nat.digitChar e → d = e := by
  decide

theorem natRepr_data_digits {n : Nat} : ∀ c ∈ (natRepr n).data, c.isDigit = true := by
  by_cases h : n = 0
  · subst h; intro c hc
    have h0 : (natRepr 0).data = ['0'] := rfl
    rw [h0, List.mem_singleton] at hc
    subst hc; decide
  · intro c hc
    simp only [natRepr, if_neg h, List.mem_reverse] at hc
    obtain ⟨d, hd, rfl⟩ := List.mem_map.mp hc
    exact digitChar_isDigit d (natDigits_lt_ten d hd)

theorem natRepr_data_ne_nil {n : Nat} : (natRepr n).data ≠ [] := by
  by_cases h : n = 0
  · subst h; simp [natRepr]
  · simp only [natRepr, if_neg h]
    intro he
    exact natDigits_ne_nil h (by simpa using he)

theorem map_digitChar_inj :
    ∀ {l₁ l₂ : List Nat}, (∀ d ∈ l₁, d < 10) → (∀ d ∈ l₂, d < 10) →
      l₁.map Nat.digitChar = l₂.map Nat.digitChar → l₁ = l₂ := by
  intro l₁
  induction l₁ with
  | nil => intro l₂ _ _ h; cases l₂ <;> simp_all
  | cons a as ih =>
    intro l₂ h₁ h₂ h
    cases l₂ with
    | nil => simp at h
    | cons b bs =>
      simp only [List.map_cons, List.cons.injEq] at h
      have ha : a = b :=
        digitChar_injOn a (h₁ a (by simp)) b (h₂ b (by simp)) h.1
      have hs : as = bs :=
        ih (fun d hd => h₁ d (by simp [hd])) (fun d hd => h₂ d (by simp [hd])) h.2
      simp [ha, hs]

theorem natRepr_inj {a b : Nat} (h : natRepr a = natRepr b) : a = b := by
  have hdata : (natRepr a).data = (natRepr b).data := by rw [h]
  by_cases ha : a = 0 <;> by_cases hb : b = 0
  · omega
  · exfalso
    subst ha
    simp only [natRepr, if_pos rfl, if_neg hb] at hdata
    have hd2 : ['0'] = ((natDigits b).map Nat.digitChar).reverse := hdata
    have h0 : (natDigits b).map Nat.digitChar = ['0'] := by
      have := congrArg List.reverse hd2
      simpa using this.symm
    cases hd : natDigits b with
    | nil => rw [hd] at h0; simp at h0
    | cons d t =>
      rw [hd] at h0
      simp only [List.map_cons, List.cons.injEq] at h0
      have hd10 : d < 10 := @natDigits_lt_ten b d (by rw [hd]; exact List.mem_cons_self d t)
      have : d = 0 := digitChar_injOn d hd10 0 (by omega) h0.1
      have hval := digitsVal_natDigits b
      rw [hd, this] at hval
      have ht : t.map Nat.digitChar = [] := h0.2
      have : t = [] := by cases t <;> simp_all
      subst this
      simp [digitsVal] at hval
      omega
  · exfalso
    subst hb
    simp only [natRepr, if_pos rfl, if_neg ha] at hdata
    have hd2 : ((natDigits a).map Nat.digitChar).reverse = ['0'] := hdata
    have h0 : (natDigits a).map Nat.digitChar = ['0'] := by
      have := congrArg List.reverse hd2
      simpa using this
    cases hd : natDigits a with
    | nil => rw [hd] at h0; simp at h0
    | cons d t =>
      rw [hd] at h0
      simp only [List.map_cons, List.cons.injEq] at h0
      have hd10 : d < 10 := @natDigits_lt_ten a d (by rw [hd]; exact List.mem_cons_self d t)
      have : d = 0 := digitChar_injOn d hd10 0 (by omega) h0.1
      have hval := digitsVal_natDigits a
      rw [hd, this] at hval
      have ht : t.map Nat.digitChar = [] := h0.2
      have : t = [] := by cases t <;> simp_all
      subst this
      simp [digitsVal] at hval
      omega
  · simp only [natRepr, if_neg ha, if_neg hb] at h
    have hdl : ((natDigits a).map Nat.digitChar).reverse =
        ((natDigits b).map Nat.digitChar).reverse := by
      have h2 : (⟨((natDigits a).map Nat.digitChar).reverse⟩ : String).data =
          (⟨((natDigits b).map Nat.digitChar).reverse⟩ : String).data := by rw [h]
      exact h2
    have hmap := List.reverse_injective hdl
    have := map_digitChar_inj (fun d hd => natDigits_lt_ten d hd)
      (fun d hd => natDigits_lt_ten d hd) hmap
    calc a = digitsVal (natDigits a) := (digitsVal_natDigits a).symm
    _ = digitsVal (natDigits b) := by rw [this]
    _ = b := digitsVal_natDigits b

/- ── the "_dupN" suffix machinery behind _dedup_columns ── -/

theorem takeWhile_append_all {p : Char → Bool} {l₁ l₂ : List Char} {b : Char}
    (h₁ : ∀ a ∈ l₁, p a = true) (hb : p b = false) :
    (l₁ ++ b :: l₂).takeWhile p = l₁ := by
  induction l₁ with
  | nil => simp [List.takeWhile_cons, hb]
  | cons a as ih =>
    have ha : p a = true := h₁ a (by simp)
    simp [List.takeWhile_cons, ha, ih (fun x hx => h₁ x (by simp [hx]))]

theorem startsWithL_append (pre post : List Char) :
    startsWithL pre (pre ++ post) = true := by
  induction pre with
  | nil => rfl
  | cons a as ih => simp [startsWithL, ih]

theorem dup_concat_data (c : String) (k : Nat) :
    (c ++ "_dup" ++ natRepr k).data
      = c.data ++ ['_', 'd', 'u', 'p'] ++ (natRepr k).data := by
  rw [String.data_append, String.data_append]

theorem dup_concat_rev (c : String) (k : Nat) :
    (c ++ "_dup" ++ natRepr k).data.reverse
      = (natRepr k).data.reverse ++ 'p' :: 'u' :: 'd' :: '_' :: c.data.reverse := by
  rw [dup_concat_data]
  simp

/-- Any string of the shape c ++ "_dup" ++ digits satisfies endsDupNum. -/
theorem endsDupNum_of_concat {x c : String} {k : Nat}
    (h : x = c ++ "_dup" ++ natRepr k) : endsDupNum x = true := by
  subst h
  unfold endsDupNum
  rw [dup_concat_rev]
  have hdig : ∀ a ∈ (natRepr k).data.reverse, a.isDigit = true := by
    intro a ha; exact natRepr_data_digits a (List.mem_reverse.mp ha)
  have htw : ((natRepr k).data.reverse ++ 'p' :: ('u' :: 'd' :: '_' :: c.data.reverse)).takeWhile
      Char.isDigit = (natRepr k).data.reverse :=
    takeWhile_append_all hdig (by decide)
  simp only [htw]
  have hne : (natRepr k).data.reverse ≠ [] := by
    simp [natRepr_data_ne_nil]
  have hdrop : ((natRepr k).data.reverse ++ 'p' :: ('u' :: 'd' :: '_' :: c.data.reverse)).drop
      (natRepr k).data.reverse.length = 'p' :: ('u' :: 'd' :: '_' :: c.data.reverse) :=
    List.drop_left _ _
  rw [hdrop]
  have hsw : startsWithL ['p', 'u', 'd', '_'] (['p', 'u', 'd', '_'] ++ c.data.reverse) = true :=
    startsWithL_append _ _
  simp only [List.cons_append, List.nil_append] at hsw
  simp [hsw, List.isEmpty_iff, hne]

/-- A block of digits followed by a non-digit separator is parsed uniquely. -/
theorem digit_block_align {d₁ d₂ t₁ t₂ : List Char}
    (h₁ : ∀ a ∈ d₁, a.isDigit = true) (h₂ : ∀ a ∈ d₂, a.isDigit = true)
    (he : d₁ ++ 'p' :: t₁ = d₂ ++ 'p' :: t₂) : d₁ = d₂ ∧ t₁ = t₂ := by
  induction d₁ generalizing d₂ with
  | nil =>
    cases d₂ with
    | nil => simpa using he
    | cons b bs =>
      exfalso
      simp only [List.nil_append, List.cons_append, List.cons.injEq] at he
      have hb := h₂ b (by simp)
      rw [← he.1] at hb
      exact absurd hb (by decide)
  | cons a as ih =>
    cases d₂ with
    | nil =>
      exfalso
      simp only [List.nil_append, List.cons_append, List.cons.injEq] at he
      have ha := h₁ a (by simp)
      rw [he.1] at ha
      exact absurd ha (by decide)
    | cons b bs =>
      simp only [List.cons_append, List.cons.injEq] at he
      obtain ⟨rfl, he2⟩ := he
      obtain ⟨hd, ht⟩ := ih (fun x hx => h₁ x (by simp [hx]))
        (fun x hx => h₂ x (by simp [hx])) he2
      exact ⟨by rw [hd], ht⟩

/-- The decomposition base ++ "_dup" ++ digits of a label is unique. -/
theorem dup_suffix_inj {c c' : String} {n n' : Nat}
    (h : c ++ "_dup" ++ natRepr n = c' ++ "_dup" ++ natRepr n') : c = c' ∧ n = n' := by
  have hd : (c ++ "_dup" ++ natRepr n).data.reverse
      = (c' ++ "_dup" ++ natRepr n').data.reverse := by rw [h]
  rw [dup_concat_rev, dup_concat_rev] at hd
  have h₁ : ∀ a ∈ (natRepr n).data.reverse, a.isDigit = true := by
    intro a ha; exact natRepr_data_digits a (List.mem_reverse.mp ha)
  have h₂ : ∀ a ∈ (natRepr n').data.reverse, a.isDigit = true := by
    intro a ha; exact natRepr_data_digits a (List.mem_reverse.mp ha)
  obtain ⟨hdig, htail⟩ := digit_block_align h₁ h₂ hd
  have hnn : n = n' := by
    apply natRepr_inj
    apply String.ext
    exact List.reverse_injective hdig
  have hcc : c = c' := by
    apply String.ext
    simp only [List.cons.injEq] at htail
    exact List.reverse_injective htail.2.2.2
  exact ⟨hcc, hnn⟩

/-- Once a label has been seen, it is never emitted bare again. -/
theorem dedupGo_bare_not_mem {cs : List String} {seen : List (String × Nat)}
    {c : String} {m : Nat} (hs : getA seen c = some m)
    (hc : endsDupNum c = false) : c ∉ dedupGo seen cs := by
  induction cs generalizing seen m with
  | nil => simp [dedupGo]
  | cons c' cs' ih =>
    simp only [dedupGo]
    cases hg : getA seen c' with
    | some k =>
      simp only [List.mem_cons, not_or]
      constructor
      · intro he
        have := endsDupNum_of_concat he
        rw [this] at hc; exact absurd hc (by simp)
      · by_cases hcc : c' = c
        · subst hcc
          exact ih (getA_setA_self seen c' (k + 1))
        · exact ih (by rw [getA_setA_other seen c' c (k + 1) (Ne.symm hcc)]; exact hs)
    | none =>
      simp only [List.mem_cons, not_or]
      have hcc : c' ≠ c := by
        intro he; subst he; rw [hg] at hs; exact absurd hs (by simp)
      constructor
      · exact fun he => hcc he.symm
      · exact ih (by rw [getA_setA_other seen c' c 1 (Ne.symm hcc)]; exact hs)

/-- Counters only grow, so an already-granted suffixed name never recurs. -/
theorem dedupGo_suffixed_not_mem {cs : List String} {seen : List (String × Nat)}
    {c : String} {m j : Nat} (hs : getA seen c = some m) (hj : j ≤ m)
    (hcs : ∀ x ∈ cs, endsDupNum x = false) :
    (c ++ "_dup" ++ natRepr j) ∉ dedupGo seen cs := by
  induction cs generalizing seen m with
  | nil => simp [dedupGo]
  | cons c' cs' ih =>
    have hcs' : ∀ x ∈ cs', endsDupNum x = false := fun x hx => hcs x (by simp [hx])
    simp only [dedupGo]
    cases hg : getA seen c' with
    | some k =>
      simp only [List.mem_cons, not_or]
      constructor
      · intro he
        obtain ⟨hc1, hc2⟩ := dup_suffix_inj he.symm
        subst hc1
        rw [hg] at hs
        have : k = m := by injection hs
        omega
      · by_cases hcc : c' = c
        · subst hcc
          rw [hg] at hs
          have hkm : k = m := by injection hs
          exact ih (getA_setA_self seen c' (k + 1)) (by omega) hcs'
        · exact ih (by rw [getA_setA_other seen c' c (k + 1) (Ne.symm hcc)]; exact hs)
            hj hcs'
    | none =>
      simp only [List.mem_cons, not_or]
      have hcc : c' ≠ c := by
        intro he; subst he; rw [hg] at hs; exact absurd hs (by simp)
      constructor
      · intro he
        have := endsDupNum_of_concat he.symm
        rw [hcs c' (by simp)] at this
        exact absurd this (by simp)
      · exact ih (by rw [getA_setA_other seen c' c 1 (Ne.symm hcc)]; exact hs) hj hcs'

/-- The scan of _dedup_columns yields pairwise distinct labels whenever no
incoming label already ends in "_dup" plus digits. -/
theorem dedupGo_nodup {cs : List String} (seen : List (String × Nat))
    (hcs : ∀ x ∈ cs, endsDupNum x = false) : (dedupGo seen cs).Nodup := by
  induction cs generalizing seen with
  | nil => simp [dedupGo]
  | cons c cs' ih =>
    have hc : endsDupNum c = false := hcs c (by simp)
    have hcs' : ∀ x ∈ cs', endsDupNum x = false := fun x hx => hcs x (by simp [hx])
    simp only [dedupGo]
    cases hg : getA seen c with
    | some k =>
      refine List.nodup_cons.mpr ⟨?_, ih _ hcs'⟩
      exact dedupGo_suffixed_not_mem (getA_setA_self seen c (k + 1)) (Nat.le_refl _) hcs'
    | none =>
      refine List.nodup_cons.mpr ⟨?_, ih _ hcs'⟩
      exact dedupGo_bare_not_mem (getA_setA_self seen c 1) hc

/- ── lemmas about the alias-rename pass ── -/

theorem map_eq_self {α : Type} {l : List α} {f : α → α} (h : ∀ x ∈ l, f x = x) :
    l.map f = l := by
  induction l with
  | nil => rfl
  | cons a t ih => simp [h a (by simp), ih (fun x hx => h x (by simp [hx]))]

theorem dedupGo_id {cs : List String} (seen : List (String × Nat)) (hnd : cs.Nodup)
    (hfresh : ∀ c ∈ cs, getA seen c = none) : dedupGo seen cs = cs := by
  induction cs generalizing seen with
  | nil => simp [dedupGo]
  | cons c cs' ih =>
    have hc := hfresh c (by simp)
    simp only [dedupGo, hc]
    congr 1
    refine ih _ (List.nodup_cons.mp hnd).2 (fun x hx => ?_)
    have hxc : x ≠ c := by
      intro he; subst he; exact (List.nodup_cons.mp hnd).1 hx
    rw [getA_setA_other seen c x 1 hxc]
    exact hfresh x (by simp [hx])

theorem buildRenameGo_cons_some {m : AliasMap} {ren : List (String × String)}
    {seen : List String} {c : String} {cs : List String} {t : String}
    (ht : aliasTarget m c = some t) :
    buildRenameGo m ren seen (c :: cs) =
      if memB t seen then buildRenameGo m ren seen cs
      else buildRenameGo m (ren ++ [(c, t)]) (t :: seen) cs := by
  simp only [buildRenameGo, ht]

theorem buildRenameGo_cons_none {m : AliasMap} {ren : List (String × String)}
    {seen : List String} {c : String} {cs : List String}
    (ht : aliasTarget m c = none) :
    buildRenameGo m ren seen (c :: cs) = buildRenameGo m ren seen cs := by
  simp only [buildRenameGo, ht]

/-- Every rename entry either pre-exists or records a genuine alias hit. -/
theorem buildRenameGo_sound {m : AliasMap} {cs : List String} :
    ∀ {ren : List (String × String)} {seen : List String},
      ∀ p ∈ (buildRenameGo m ren seen cs).1,
        p ∈ ren ∨ (p.1 ∈ cs ∧ aliasTarget m p.1 = some p.2) := by
  induction cs with
  | nil => intro ren seen p hp; exact Or.inl hp
  | cons c cs' ih =>
    intro ren seen p hp
    cases ht : aliasTarget m c with
    | some t =>
      rw [buildRenameGo_cons_some ht] at hp
      by_cases hm : memB t seen
      · rw [if_pos hm] at hp
        rcases ih p hp with h | h
        · exact Or.inl h
        · exact Or.inr ⟨by simp [h.1], h.2⟩
      · rw [if_neg hm] at hp
        rcases ih p hp with h | h
        · rcases List.mem_append.mp h with h' | h'
          · exact Or.inl h'
          · simp only [List.mem_singleton] at h'
            subst h'
            exact Or.inr ⟨by simp, ht⟩
        · exact Or.inr ⟨by simp [h.1], h.2⟩
    | none =>
      rw [buildRenameGo_cons_none ht] at hp
      rcases ih p hp with h | h
      · exact Or.inl h
      · exact Or.inr ⟨by simp [h.1], h.2⟩

/- ── C9 ── -/

/-- C9 (counterexample): the raw-duplicate resolution step alone does not
guarantee a unique column index: on raw labels ["a", "a", "a_dup2"] the
fresh name handed to the second "a" collides with the pre-existing label
"a_dup2". -/
theorem dedup_columns_unique_cex :
    ¬ ((dedupColumns ⟨["a", "a", "a_dup2"], [[Cell.s "x", Cell.s "y", Cell.s "z"]]⟩).cols).Nodup
      ∧ (dedupColumns ⟨["a", "a", "a_dup2"], [[Cell.s "x", Cell.s "y", Cell.s "z"]]⟩).cols
        = ["a", "a_dup2", "a_dup2"] := by
  decide

/-- C9 (amended): after _dedup_columns the column index is unique for every
input table none of whose stripped raw labels already ends in "_dup"
followed by digits; raw labels that do carry such a suffix can collide with
the freshly generated names. -/
theorem dedup_columns_unique (df : DF)
    (h : ∀ c ∈ stripLabels df.cols, endsDupNum c = false) :
    ((dedupColumns df).cols).Nodup :=
  dedupGo_nodup [] h

/-- Witness for dedup_columns_unique at a concrete table with two duplicated
raw labels. -/
theorem dedup_columns_unique_witness :
    (∀ c ∈ stripLabels ["Contract Number", "contract number", "contract number",
        "Plan ID", "contract number"], endsDupNum c = false) ∧
    ((dedupColumns ⟨["Contract Number", "contract number", "contract number",
        "Plan ID", "contract number"], []⟩).cols).Nodup :=
  ⟨by decide, dedup_columns_unique _ (by decide)⟩

/- ── C1 ── -/

/-- C1 (code bug): _normalise_cols promises a strictly unique column index
("resolves any post-rename collisions so the resulting index is always
unique"), but on raw columns ["plan_id", "Plan_ID", "Plan_ID_2"] with the
CPSC alias map the final safety net itself hands out the suffixed name
"Plan_ID_2", which collides with the pre-existing third column, so the
returned table has a duplicate column index. -/
theorem normalise_cols_unique_bug :
    (normaliseCols ⟨["plan_id", "Plan_ID", "Plan_ID_2"],
        [[Cell.s "a", Cell.s "b", Cell.s "c"]]⟩ CPSC_COL_ALIASES).cols
      = ["Plan_ID", "Plan_ID_2", "Plan_ID_2"] ∧
    hasDup (normaliseCols ⟨["plan_id", "Plan_ID", "Plan_ID_2"],
        [[Cell.s "a", Cell.s "b", Cell.s "c"]]⟩ CPSC_COL_ALIASES).cols = true := by
  decide

/- ── C5 ── -/

/-- C5 (counterexample): normalisation is not idempotent.  On the table with
raw columns ["contract_number", "contract_number"] the first pass yields
["Contract_ID", "contract_number_dup2"]; a second pass renames the leftover
"contract_number_dup2" onto the now-unclaimed target Contract_ID and the
safety net turns the columns into ["Contract_ID", "Contract_ID_2"]. -/
theorem normalise_cols_idempotent_cex :
    normaliseCols (normaliseCols ⟨["contract_number", "contract_number"],
        [[Cell.s "x", Cell.s "y"]]⟩ CPSC_COL_ALIASES) CPSC_COL_ALIASES
      ≠ normaliseCols ⟨["contract_number", "contract_number"],
        [[Cell.s "x", Cell.s "y"]]⟩ CPSC_COL_ALIASES ∧
    (normaliseCols (normaliseCols ⟨["contract_number", "contract_number"],
        [[Cell.s "x", Cell.s "y"]]⟩ CPSC_COL_ALIASES) CPSC_COL_ALIASES).cols
      = ["Contract_ID", "Contract_ID_2"] ∧
    (normaliseCols ⟨["contract_number", "contract_number"],
        [[Cell.s "x", Cell.s "y"]]⟩ CPSC_COL_ALIASES).cols
      = ["Contract_ID", "contract_number_dup2"] := by
  decide

/-- C5 (amended): a second application of _normalise_cols changes nothing
provided the once-normalised table has pairwise-distinct, whitespace-free
labels and none of its labels resolves under the alias lookup to a name
other than itself (in particular no leftover "_dupN" column whose base is
still aliased).  The counterexample above shows the unrestricted claim
fails. -/
theorem normalise_cols_idempotent_amended (df : DF) (m : AliasMap)
    (hnd : ((normaliseCols df m).cols).Nodup)
    (htrim : ∀ c ∈ (normaliseCols df m).cols, strip c = c)
    (hfix : ∀ c ∈ (normaliseCols df m).cols, (aliasTarget m c).getD c = c) :
    normaliseCols (normaliseCols df m) m = normaliseCols df m := by
  have h1 : stripLabels (normaliseCols df m).cols = (normaliseCols df m).cols :=
    map_eq_self htrim
  have h2 : dedupLabels (normaliseCols df m).cols = (normaliseCols df m).cols := by
    unfold dedupLabels
    rw [h1]
    exact dedupGo_id [] hnd (fun c _ => rfl)
  have h3 : applyRename (buildRename m (normaliseCols df m).cols)
      (normaliseCols df m).cols = (normaliseCols df m).cols := by
    apply map_eq_self
    intro c hc
    cases ha : alookup (buildRename m (normaliseCols df m).cols) c with
    | none => simp [ha]
    | some t =>
      have hmem := alookup_mem ha
      rcases buildRenameGo_sound (c, t) hmem with h | h
      · simp at h
      · have hfx := hfix c h.1
        rw [h.2] at hfx
        simp only [Option.getD_some] at hfx
        simp [ha, hfx]
  have h4 : hasDup (normaliseCols df m).cols = false := hasDup_eq_false_iff.mpr hnd
  have h5 : normaliseLabels m (normaliseCols df m).cols = (normaliseCols df m).cols := by
    simp only [normaliseLabels]
    rw [h2, h3, h4]
    simp
  have h6 : normaliseCols (normaliseCols df m) m
      = ⟨normaliseLabels m (normaliseCols df m).cols, (normaliseCols df m).rows⟩ := rfl
  rw [h6, h5]

/-- Witness for normalise_cols_idempotent_amended on a table whose single
aliased column normalises cleanly. -/
theorem normalise_cols_idempotent_amended_witness :
    (((normaliseCols ⟨["contract_number", "foo"], [[Cell.s "1", Cell.s "2"]]⟩
        CPSC_COL_ALIASES).cols).Nodup ∧
     (∀ c ∈ (normaliseCols ⟨["contract_number", "foo"], [[Cell.s "1", Cell.s "2"]]⟩
        CPSC_COL_ALIASES).cols, strip c = c) ∧
     (∀ c ∈ (normaliseCols ⟨["contract_number", "foo"], [[Cell.s "1", Cell.s "2"]]⟩
        CPSC_COL_ALIASES).cols, (aliasTarget CPSC_COL_ALIASES c).getD c = c)) ∧
    normaliseCols (normaliseCols ⟨["contract_number", "foo"], [[Cell.s "1", Cell.s "2"]]⟩
        CPSC_COL_ALIASES) CPSC_COL_ALIASES
      = normaliseCols ⟨["contract_number", "foo"], [[Cell.s "1", Cell.s "2"]]⟩
        CPSC_COL_ALIASES :=
  ⟨⟨by decide, by decide, by decide⟩,
    normalise_cols_idempotent_amended _ _ (by decide) (by decide) (by decide)⟩

/- ── C3 ── -/

/-- C3: the value cleanser turns "1,234" into the integer 1234 and keeps the
row, turns "*" and "abc" into 0 and drops those rows, and every row of any
returned table has an integer Enrollment value strictly greater than 0. -/
theorem clean_enrollment_spec :
    cleanCellVal (Cell.s "1,234") = 1234 ∧
    cleanCellVal (Cell.s "*") = 0 ∧
    cleanCellVal (Cell.s "abc") = 0 ∧
    cleanEnrollment ⟨["Enrollment"], [[Cell.s "1,234"], [Cell.s "*"], [Cell.s "abc"]]⟩
      = ⟨["Enrollment"], [[Cell.i 1234]]⟩ ∧
    ∀ df : DF, ∀ r ∈ (cleanEnrollment df).rows, 0 < enrollVal (cleanEnrollment df).cols r := by
  refine ⟨by decide, by decide, by decide, by decide, ?_⟩
  intro df r hr
  simp only [cleanEnrollment] at hr ⊢
  exact of_decide_eq_true (List.mem_filter.mp hr).2

/-- Witness for the universally quantified part of clean_enrollment_spec at
a concrete table and row. -/
theorem clean_enrollment_spec_witness :
    [Cell.i 1234] ∈ (cleanEnrollment ⟨["Enrollment"], [[Cell.s "1,234"]]⟩).rows ∧
    0 < enrollVal (cleanEnrollment ⟨["Enrollment"], [[Cell.s "1,234"]]⟩).cols [Cell.i 1234] :=
  ⟨by decide, clean_enrollment_spec.2.2.2.2 _ [Cell.i 1234] (by decide)⟩

/- ── membership lemmas for the column-guarantee steps ── -/

theorem setColWith_cols_superset {df : DF} {k : String} {f : List Cell → Cell} :
    ∀ c ∈ df.cols, c ∈ (setColWith df k f).cols := by
  intro c hc
  simp only [setColWith]
  cases hi : firstIdx df.cols k with
  | some i => exact hc
  | none => simp [hc]

theorem setColWith_cols_self {df : DF} {k : String} {f : List Cell → Cell} :
    k ∈ (setColWith df k f).cols := by
  simp only [setColWith]
  cases hi : firstIdx df.cols k with
  | some i => exact List.get?_mem (firstIdx_get hi)
  | none => simp

theorem addColsDefault_cols_superset {dflt : String → Cell} {names : List String} :
    ∀ df : DF, ∀ c ∈ df.cols, c ∈ (addColsDefault dflt names df).cols := by
  induction names with
  | nil => intro df c hc; exact hc
  | cons n ns ih =>
    intro df c hc
    have hstep : addColsDefault dflt (n :: ns) df
        = addColsDefault dflt ns
            (if memB n df.cols then df
             else { cols := df.cols ++ [n], rows := df.rows.map (· ++ [dflt n]) }) := rfl
    rw [hstep]
    apply ih
    cases hm : memB n df.cols with
    | true => simpa [hm] using hc
    | false => simp [hm, hc]

theorem addColsDefault_cols_mem {dflt : String → Cell} {names : List String} :
    ∀ df : DF, ∀ n ∈ names, n ∈ (addColsDefault dflt names df).cols := by
  induction names with
  | nil => intro df n hn; simp at hn
  | cons n0 ns ih =>
    intro df n hn
    have hstep : addColsDefault dflt (n0 :: ns) df
        = addColsDefault dflt ns
            (if memB n0 df.cols then df
             else { cols := df.cols ++ [n0], rows := df.rows.map (· ++ [dflt n0]) }) := rfl
    rw [hstep]
    rcases List.mem_cons.mp hn with rfl | hn'
    · apply addColsDefault_cols_superset
      cases hm : memB n df.cols with
      | true => simpa using memB_iff.mp hm
      | false => simp [hm]
    · exact ih _ n hn'

theorem addColsDefault_id {dflt : String → Cell} {names : List String} {df : DF}
    (h : ∀ n ∈ names, n ∈ df.cols) : addColsDefault dflt names df = df := by
  induction names with
  | nil => rfl
  | cons n ns ih =>
    have hm : memB n df.cols = true := memB_iff.mpr (h n (by simp))
    have hstep : addColsDefault dflt (n :: ns) df
        = addColsDefault dflt ns
            (if memB n df.cols then df
             else { cols := df.cols ++ [n], rows := df.rows.map (· ++ [dflt n]) }) := rfl
    rw [hstep, if_pos hm]
    exact ih (fun x hx => h x (by simp [hx]))

theorem cleanEnrollment_enroll_mem (df : DF) : "Enrollment" ∈ (cleanEnrollment df).cols := by
  simp only [cleanEnrollment]
  exact setColWith_cols_self

theorem deriveState_cols_superset {df : DF} : ∀ c ∈ df.cols, c ∈ (deriveState df).cols := by
  intro c hc
  exact setColWith_cols_superset _ (setColWith_cols_superset _ hc)

theorem state_branch_superset (d2 : DF) (b : Bool) :
    ∀ c ∈ d2.cols, c ∈ (if b then deriveState d2 else d2).cols := by
  cases b with
  | false => intro c hc; simpa using hc
  | true => intro c hc; simpa using deriveState_cols_superset _ hc

/- ── C10 ── -/

theorem selectColsDF_cols (sel : List String) (df : DF) :
    (selectColsDF sel df).cols = sel := rfl

/-- Every canonical column is present before the final selection of
normalise_cpsc. -/
theorem normaliseCpsc_cols (df : DF) (y mo : Nat) :
    (normaliseCpsc df y mo).cols = CPSC_OUTPUT_COLS := by
  simp only [normaliseCpsc, selectColsDF_cols]
  refine List.filter_eq_self.mpr ?_
  intro c hc
  rw [memB_iff]
  have henr : "Enrollment" ∈ (cleanEnrollment (normaliseCols df CPSC_COL_ALIASES)).cols :=
    cleanEnrollment_enroll_mem _
  have lift3 := state_branch_superset (cleanEnrollment (normaliseCols df CPSC_COL_ALIASES))
    (!memB "State" (cleanEnrollment (normaliseCols df CPSC_COL_ALIASES)).cols &&
      memB "SSA_Code" (cleanEnrollment (normaliseCols df CPSC_COL_ALIASES)).cols)
  fin_cases hc
  · exact setColWith_cols_superset _ (setColWith_cols_superset _ (setColWith_cols_superset _
      (setColWith_cols_superset _ (addColsDefault_cols_mem _ _ (by simp)))))
  · exact setColWith_cols_superset _ (setColWith_cols_superset _ (setColWith_cols_superset _
      (setColWith_cols_superset _ (addColsDefault_cols_mem _ _ (by simp)))))
  · exact setColWith_cols_superset _ (setColWith_cols_superset _ (setColWith_cols_superset _
      (setColWith_cols_superset _ (addColsDefault_cols_mem _ _ (by simp)))))
  · exact setColWith_cols_superset _ (setColWith_cols_superset _ (setColWith_cols_superset _
      (setColWith_cols_superset _ (addColsDefault_cols_mem _ _ (by simp)))))
  · exact setColWith_cols_superset _ (setColWith_cols_superset _ (setColWith_cols_superset _
      (setColWith_cols_superset _ (addColsDefault_cols_mem _ _ (by simp)))))
  · exact setColWith_cols_superset _ (setColWith_cols_superset _ (setColWith_cols_superset _
      (setColWith_cols_superset _ (addColsDefault_cols_mem _ _ (by simp)))))
  · exact setColWith_cols_superset _ (setColWith_cols_superset _ (setColWith_cols_superset _
      (setColWith_cols_superset _ (addColsDefault_cols_mem _ _ (by simp)))))
  · exact setColWith_cols_superset _ (setColWith_cols_superset _ (setColWith_cols_superset _
      (setColWith_cols_superset _ (addColsDefault_cols_superset _ _ (lift3 _ henr)))))
  · exact setColWith_cols_superset _ (setColWith_cols_superset _ (setColWith_cols_superset _
      setColWith_cols_self))
  · exact setColWith_cols_superset _ (setColWith_cols_superset _ setColWith_cols_self)
  · exact setColWith_cols_superset _ setColWith_cols_self
  · exact setColWith_cols_self

/-- C10: for every input table and calendar month, normalise_cpsc returns a
table whose columns are exactly the canonical 12-column set in canonical
order, never a proper subset, and consequently the missing-column synthesis
of load_enrollment's alignment step leaves such frames unchanged. -/
theorem normalise_cpsc_full_columns (df : DF) (year month : Nat)
    (hm : 1 ≤ month ∧ month ≤ 12) :
    (normaliseCpsc df year month).cols = CPSC_OUTPUT_COLS ∧
    addColsDefault alignDefault CPSC_OUTPUT_COLS (normaliseCpsc df year month)
      = normaliseCpsc df year month := by
  have h1 := normaliseCpsc_cols df year month
  refine ⟨h1, addColsDefault_id ?_⟩
  intro n hn
  rw [h1]
  exact hn

/-- Witness for normalise_cpsc_full_columns at a concrete table and month. -/
theorem normalise_cpsc_full_columns_witness :
    (1 ≤ 3 ∧ 3 ≤ 12) ∧
    (normaliseCpsc ⟨["contract_number", "enrollment"], [[Cell.s "H1", Cell.s "5"]]⟩ 2024 3).cols
      = CPSC_OUTPUT_COLS ∧
    addColsDefault alignDefault CPSC_OUTPUT_COLS
        (normaliseCpsc ⟨["contract_number", "enrollment"], [[Cell.s "H1", Cell.s "5"]]⟩ 2024 3)
      = normaliseCpsc ⟨["contract_number", "enrollment"], [[Cell.s "H1", Cell.s "5"]]⟩ 2024 3 :=
  ⟨by decide, normalise_cpsc_full_columns _ 2024 3 (by decide)⟩

/- ── C2 ── -/

/-- The column-guarantee fold only ever appends columns, extending every row
by the matching defaults. -/
theorem addColsDefault_shape (dflt : String → Cell) (names : List String) (df : DF) :
    ∃ extra : List String,
      addColsDefault dflt names df
        = ⟨df.cols ++ extra, df.rows.map (· ++ extra.map dflt)⟩ := by
  induction names generalizing df with
  | nil =>
    refine ⟨[], ?_⟩
    have h2 : df.rows.map (· ++ ([] : List String).map dflt) = df.rows :=
      map_eq_self (fun r _ => by simp)
    have h1 : df.cols ++ ([] : List String) = df.cols := by simp
    calc addColsDefault dflt [] df = ⟨df.cols, df.rows⟩ := rfl
    _ = ⟨df.cols ++ [], df.rows.map (· ++ ([] : List String).map dflt)⟩ := by
        rw [h1, h2]
  | cons n ns ih =>
    have hstep : addColsDefault dflt (n :: ns) df
        = addColsDefault dflt ns
            (if memB n df.cols then df
             else { cols := df.cols ++ [n], rows := df.rows.map (· ++ [dflt n]) }) := rfl
    cases hm : memB n df.cols with
    | true =>
      obtain ⟨e, he⟩ := ih df
      exact ⟨e, by rw [hstep, hm, if_pos rfl, he]⟩
    | false =>
      obtain ⟨e, he⟩ :=
        ih { cols := df.cols ++ [n], rows := df.rows.map (· ++ [dflt n]) }
      refine ⟨n :: e, ?_⟩
      rw [hstep, hm]
      simp only [Bool.false_eq_true, if_false]
      rw [he]
      simp only [DF.mk.injEq]
      constructor
      · simp [List.append_assoc]
      · rw [List.map_map]
        apply List.map_congr_left
        intro r _
        simp [List.append_assoc, Function.comp]

theorem alignOne_cols (f : DF) : (alignOne f).cols = CPSC_OUTPUT_COLS := rfl

theorem alignOne_rows_length (f : DF) :
    ∀ r ∈ (alignOne f).rows, r.length = CPSC_OUTPUT_COLS.length := by
  intro r hr
  simp only [alignOne, selectColsDF] at hr
  obtain ⟨row, _, rfl⟩ := List.mem_map.mp hr
  simp

/-- A canonical column missing from an accepted frame reads back as its
synthesized default in every aligned row. -/
theorem alignOne_missing_default (f : DF) (hwf : WF f) (c : String) (i : Nat)
    (hc : c ∈ CPSC_OUTPUT_COLS) (hidx : firstIdx CPSC_OUTPUT_COLS c = some i)
    (hmiss : c ∉ f.cols) :
    ∀ r ∈ (alignOne f).rows, r.get? i = some (alignDefault c) := by
  obtain ⟨extra, he⟩ := addColsDefault_shape alignDefault CPSC_OUTPUT_COLS f
  intro r hr
  simp only [alignOne, selectColsDF] at hr
  obtain ⟨row, hrow, rfl⟩ := List.mem_map.mp hr
  rw [List.get?_map, firstIdx_get hidx]
  simp only [Option.map_some']
  rw [Option.some_inj]
  have hcmem : c ∈ f.cols ++ extra := by
    have hmm := @addColsDefault_cols_mem alignDefault CPSC_OUTPUT_COLS f c hc
    rw [he] at hmm
    exact hmm
  have hce : c ∈ extra := by
    rcases List.mem_append.mp hcmem with h | h
    · exact absurd h hmiss
    · exact h
  rw [he] at hrow
  obtain ⟨r0, hr0, rfl⟩ := List.mem_map.mp hrow
  have hlen : r0.length = f.cols.length := hwf r0 hr0
  rw [he]
  unfold getByLabel
  rw [firstIdx_append_right hmiss]
  obtain ⟨j, hj⟩ := firstIdx_of_mem hce
  rw [hj]
  simp only [Option.map_some']
  rw [List.get?_append_right (by omega)]
  have hidx2 : j + f.cols.length - r0.length = j := by omega
  rw [hidx2, List.get?_map, firstIdx_get hj]
  simp

/-- C2: every accepted frame is aligned to the one canonical column list
before concatenation, with identical order and cardinality across frames and
across the concatenated rows, and a canonical column missing from a frame is
synthesized with Enrollment as 0 and every other column as the empty
string. -/
theorem load_enrollment_alignment (frames : List DF) (f : DF) (hf : f ∈ frames)
    (hwf : WF f) (c : String) (i : Nat) (hc : c ∈ CPSC_OUTPUT_COLS)
    (hidx : firstIdx CPSC_OUTPUT_COLS c = some i) (hmiss : c ∉ f.cols) :
    (∀ g ∈ frames, (alignOne g).cols = CPSC_OUTPUT_COLS ∧
       ∀ r ∈ (alignOne g).rows, r.length = CPSC_OUTPUT_COLS.length) ∧
    (concatStage frames).cols = CPSC_OUTPUT_COLS ∧
    (∀ r ∈ (concatStage frames).rows, r.length = CPSC_OUTPUT_COLS.length) ∧
    (∀ r ∈ (alignOne f).rows, r.get? i = some (alignDefault c)) := by
  refine ⟨fun g _ => ⟨alignOne_cols g, alignOne_rows_length g⟩, rfl, ?_,
    alignOne_missing_default f hwf c i hc hidx hmiss⟩
  intro r hr
  simp only [concatStage] at hr
  rw [List.mem_flatten] at hr
  obtain ⟨block, hb, hrb⟩ := hr
  obtain ⟨g, _, rfl⟩ := List.mem_map.mp hb
  exact alignOne_rows_length g r hrb

/-- Witness for load_enrollment_alignment: three per-period frames carrying
different subsets of the canonical columns. -/
theorem load_enrollment_alignment_witness :
    (⟨["Contract_ID"], [[Cell.s "H1"]]⟩ : DF) ∈
        [(⟨["Contract_ID"], [[Cell.s "H1"]]⟩ : DF),
         ⟨["Enrollment", "State"], [[Cell.i 7, Cell.s "CA"]]⟩,
         ⟨CPSC_OUTPUT_COLS, []⟩] ∧
    WF (⟨["Contract_ID"], [[Cell.s "H1"]]⟩ : DF) ∧
    "Enrollment" ∈ CPSC_OUTPUT_COLS ∧
    firstIdx CPSC_OUTPUT_COLS "Enrollment" = some 7 ∧
    "Enrollment" ∉ (⟨["Contract_ID"], [[Cell.s "H1"]]⟩ : DF).cols ∧
    ((∀ g ∈ [(⟨["Contract_ID"], [[Cell.s "H1"]]⟩ : DF),
         ⟨["Enrollment", "State"], [[Cell.i 7, Cell.s "CA"]]⟩,
         ⟨CPSC_OUTPUT_COLS, []⟩], (alignOne g).cols = CPSC_OUTPUT_COLS ∧
       ∀ r ∈ (alignOne g).rows, r.length = CPSC_OUTPUT_COLS.length) ∧
     (concatStage [(⟨["Contract_ID"], [[Cell.s "H1"]]⟩ : DF),
         ⟨["Enrollment", "State"], [[Cell.i 7, Cell.s "CA"]]⟩,
         ⟨CPSC_OUTPUT_COLS, []⟩]).cols = CPSC_OUTPUT_COLS ∧
     (∀ r ∈ (concatStage [(⟨["Contract_ID"], [[Cell.s "H1"]]⟩ : DF),
         ⟨["Enrollment", "State"], [[Cell.i 7, Cell.s "CA"]]⟩,
         ⟨CPSC_OUTPUT_COLS, []⟩]).rows, r.length = CPSC_OUTPUT_COLS.length) ∧
     (∀ r ∈ (alignOne (⟨["Contract_ID"], [[Cell.s "H1"]]⟩ : DF)).rows,
        r.get? 7 = some (alignDefault "Enrollment"))) :=
  ⟨by decide, by decide, by decide, by decide, by decide,
    load_enrollment_alignment _ _ (by decide) (by decide) _ 7 (by decide) (by decide)
      (by decide)⟩

/- ── C6 ── -/

theorem loadEnrollmentGo_cons_none {p : PeriodSrc} {ps : List PeriodSrc}
    {frames : List DF} {lc vc : Nat} (hl : loadOneCpsc p = none) :
    loadEnrollmentGo (p :: ps) frames lc vc = loadEnrollmentGo ps frames lc vc := by
  simp only [loadEnrollmentGo, hl]

theorem loadEnrollmentGo_cons_some {p : PeriodSrc} {ps : List PeriodSrc}
    {frames : List DF} {lc vc : Nat} {raw : DF} (hl : loadOneCpsc p = some raw) :
    loadEnrollmentGo (p :: ps) frames lc vc =
      if 10 < raw.rows.length then
        if hasDup (normaliseCpsc raw p.year p.month).cols then
          loadEnrollmentGo ps frames lc vc
        else if p.localExists then
          loadEnrollmentGo ps (frames ++ [normaliseCpsc raw p.year p.month]) (lc + 1) vc
        else loadEnrollmentGo ps (frames ++ [normaliseCpsc raw p.year p.month]) lc (vc + 1)
      else loadEnrollmentGo ps frames lc vc := by
  simp only [loadEnrollmentGo, hl]

theorem loadEnrollmentGo_all_fail :
    ∀ (ps : List PeriodSrc) (frames : List DF) (lc vc : Nat),
      (∀ p ∈ ps, periodFailsB p = true) →
      loadEnrollmentGo ps frames lc vc = (frames, lc, vc) := by
  intro ps
  induction ps with
  | nil => intro frames lc vc _; rfl
  | cons p ps' ih =>
    intro frames lc vc h
    have hp := h p (by simp)
    have htail : ∀ q ∈ ps', periodFailsB q = true := fun q hq => h q (by simp [hq])
    cases hl : loadOneCpsc p with
    | none =>
      rw [loadEnrollmentGo_cons_none hl]
      exact ih _ _ _ htail
    | some raw =>
      rw [loadEnrollmentGo_cons_some hl]
      simp only [periodFailsB, hl] at hp
      by_cases h10 : 10 < raw.rows.length
      · have hd : decide (raw.rows.length ≤ 10) = false := by
          simp only [decide_eq_false_iff_not]
          omega
        rw [hd] at hp
        simp only [Bool.false_or] at hp
        rw [if_pos h10, hp]
        simp only [if_true]
        exact ih _ _ _ htail
      · rw [if_neg h10]
        exact ih _ _ _ htail

/-- C6: if every period in the requested window fails to load, the
aggregator returns an empty table without raising, and the provenance counts
it exposes are both zero. -/
theorem load_enrollment_empty_window (ps : List PeriodSrc)
    (h : ∀ p ∈ ps, periodFailsB p = true) :
    loadEnrollment ps = (⟨[], []⟩, 0, 0) := by
  unfold loadEnrollment
  rw [loadEnrollmentGo_all_fail ps [] 0 0 h]
  rfl

/-- Witness for load_enrollment_empty_window: one period with no source at
all and one whose local file exists but cannot be read. -/
theorem load_enrollment_empty_window_witness :
    (∀ p ∈ [(⟨2024, 1, false, none, none⟩ : PeriodSrc), ⟨2024, 2, true, none, none⟩],
       periodFailsB p = true) ∧
    loadEnrollment [(⟨2024, 1, false, none, none⟩ : PeriodSrc), ⟨2024, 2, true, none, none⟩]
      = (⟨[], []⟩, 0, 0) :=
  ⟨by decide, load_enrollment_empty_window _ (by decide)⟩

/- ── C8 ── -/

/-- C8 (code bug): provenance counting keys on the existence of a local file
path, not on the source that actually served the frame.  For a period whose
local file exists but fails to read, _load_one_cpsc falls back to the live
fetch (loadOneCpsc returns the live frame), yet load_enrollment counts the
period as local: the exposed summary reads 1 month local / 0 months live
although 0 months were served locally. -/
theorem load_enrollment_provenance_bug :
    loadOneCpsc ⟨2024, 3, true, none,
        some ⟨["contract_number", "enrollment"], List.replicate 11 [Cell.s "H1", Cell.s "5"]⟩⟩
      = some ⟨["contract_number", "enrollment"], List.replicate 11 [Cell.s "H1", Cell.s "5"]⟩ ∧
    (loadEnrollment [⟨2024, 3, true, none,
        some ⟨["contract_number", "enrollment"], List.replicate 11 [Cell.s "H1", Cell.s "5"]⟩⟩]).2.1
      = 1 ∧
    (loadEnrollment [⟨2024, 3, true, none,
        some ⟨["contract_number", "enrollment"], List.replicate 11 [Cell.s "H1", Cell.s "5"]⟩⟩]).2.2
      = 0 ∧
    (loadEnrollment [⟨2024, 3, true, none,
        some ⟨["contract_number", "enrollment"], List.replicate 11 [Cell.s "H1", Cell.s "5"]⟩⟩]).1.rows
      ≠ [] := by
  refine ⟨rfl, ?_, ?_, ?_⟩ <;> decide

/- ── C7 ── -/

theorem memCell_iff {k : Cell} {l : List Cell} : memCell k l = true ↔ k ∈ l := by
  induction l with
  | nil => simp [memCell]
  | cons c cs ih => simp [memCell, ih]

theorem filter_eq_nil_of {α : Type} {l : List α} {p : α → Bool}
    (h : ∀ a ∈ l, p a = false) : l.filter p = [] := by
  induction l with
  | nil => rfl
  | cons a t ih =>
    simp only [List.filter_cons, h a (by simp)]
    exact ih (fun x hx => h x (by simp [hx]))

/-- drop_duplicates: the surviving rows carry pairwise distinct keys, and no
key already seen recurs. -/
theorem dropDupGo_keys (cols : List String) (key : String) :
    ∀ (rs : List (List Cell)) (seen : List Cell),
      ((dropDupGo cols key seen rs).map (fun r => getByLabel cols r key)).Nodup ∧
      ∀ k ∈ seen, k ∉ (dropDupGo cols key seen rs).map (fun r => getByLabel cols r key) := by
  intro rs
  induction rs with
  | nil => intro seen; simp [dropDupGo]
  | cons r rs' ih =>
    intro seen
    cases hm : memCell (getByLabel cols r key) seen with
    | true =>
      have hstep : dropDupGo cols key seen (r :: rs') = dropDupGo cols key seen rs' := by
        simp only [dropDupGo, hm, if_true]
      rw [hstep]
      exact ih seen
    | false =>
      have hstep : dropDupGo cols key seen (r :: rs')
          = r :: dropDupGo cols key (getByLabel cols r key :: seen) rs' := by
        simp only [dropDupGo, hm]
        simp
      rw [hstep]
      obtain ⟨ihn, ihs⟩ := ih (getByLabel cols r key :: seen)
      refine ⟨List.nodup_cons.mpr ⟨ihs _ (by simp), ihn⟩, ?_⟩
      intro k hk
      simp only [List.map_cons, List.mem_cons, not_or]
      constructor
      · intro he
        rw [he] at hk
        rw [memCell_iff.mpr hk] at hm
        exact absurd hm (by simp)
      · exact ihs k (by simp [hk])

/-- With pairwise distinct keys, at most one row matches any key. -/
theorem filter_key_len_le_one {rs : List (List Cell)} {keyf : List Cell → Cell}
    (hnd : (rs.map keyf).Nodup) (k : Cell) :
    (rs.filter (fun r => decide (keyf r = k))).length ≤ 1 := by
  induction rs with
  | nil => simp
  | cons r rs' ih =>
    simp only [List.map_cons, List.nodup_cons] at hnd
    by_cases h : keyf r = k
    · have hnil : rs'.filter (fun r => decide (keyf r = k)) = [] := by
        apply filter_eq_nil_of
        intro a ha
        simp only [decide_eq_false_iff_not]
        intro hak
        exact hnd.1 (by rw [h, ← hak]; exact List.mem_map_of_mem keyf ha)
      simp [List.filter_cons, h, hnil]
    · simp only [List.filter_cons, decide_eq_true_eq, if_neg h]
      exact ih hnd.2

theorem flatten_len_one {α β : Type} {l : List α} {f : α → List β}
    (h : ∀ a ∈ l, (f a).length = 1) : ((l.map f).flatten).length = l.length := by
  induction l with
  | nil => rfl
  | cons a t ih =>
    simp only [List.map_cons, List.flatten_cons, List.length_append, h a (by simp),
      ih (fun x hx => h x (by simp [hx])), List.length_cons]
    omega

theorem setColWith_rows_length (df : DF) (k : String) (f : List Cell → Cell) :
    (setColWith df k f).rows.length = df.rows.length := by
  simp only [setColWith]
  cases firstIdx df.cols k <;> simp

theorem set_append_last {α : Type} (r : List α) (x v : α) :
    (r ++ [x]).set r.length v = r ++ [v] := by
  induction r with
  | nil => rfl
  | cons a t ih => simp [List.set, ih]

theorem getByLabel_append_last {cols : List String} {k : String} (hk : k ∉ cols)
    {r : List Cell} (hr : r.length = cols.length) (v : Cell) :
    getByLabel (cols ++ [k]) (r ++ [v]) k = v := by
  unfold getByLabel
  rw [firstIdx_append_right hk]
  have h0 : firstIdx [k] k = some 0 := by simp [firstIdx]
  rw [h0]
  simp only [Option.map_some', Nat.zero_add]
  rw [List.get?_append_right (by omega)]
  have : cols.length - r.length = 0 := by omega
  rw [this]
  rfl

/-- Each enrollment row produces exactly one merged row. -/
theorem leftMergeParent_rows_length (enroll : DF) (plandir : DF) :
    (leftMergeParent enroll (refPairs plandir)).rows.length = enroll.rows.length := by
  simp only [leftMergeParent]
  apply flatten_len_one
  intro r _
  have hnd : ((refPairs plandir).map
      (fun rr => getByLabel ["Contract_ID", "Parent_Org"] rr "Contract_ID")).Nodup :=
    (dropDupGo_keys ["Contract_ID", "Parent_Org"] "Contract_ID"
      (selectColsDF ["Contract_ID", "Parent_Org"] plandir).rows []).1
  have hle := filter_key_len_le_one hnd (getByLabel enroll.cols r "Contract_ID")
  cases he : ((refPairs plandir).filter (fun rr =>
      decide (getByLabel ["Contract_ID", "Parent_Org"] rr "Contract_ID"
        = getByLabel enroll.cols r "Contract_ID"))) with
  | nil => simp
  | cons m ms =>
    rw [he] at hle
    simp only [List.isEmpty_cons, Bool.false_eq_true, if_false, List.length_map]
    simp only [List.length_cons] at hle ⊢
    omega

/-- C7: with an empty or keyless reference table every row falls back to its
own Org_Name; in every case the merge preserves exactly the enrollment rows
(none dropped, none duplicated); and in the join branch every output row
extends an enrollment row by one parent cell, the sentinel label whenever
the key has no match in the deduplicated reference. -/
theorem add_parent_org_spec (enroll plandir : DF) (hwf : WF enroll)
    (horg : "Org_Name" ∈ enroll.cols) (hpo : "Parent_Org" ∉ enroll.cols) :
    ((plandir.rows.isEmpty || !memB "Contract_ID" plandir.cols) = true →
      (addParentOrg enroll plandir).rows
        = enroll.rows.map (fun r => r ++ [getByLabel enroll.cols r "Org_Name"])) ∧
    (addParentOrg enroll plandir).rows.length = enroll.rows.length ∧
    ((plandir.rows.isEmpty || !memB "Contract_ID" plandir.cols) = false →
      ∀ r' ∈ (addParentOrg enroll plandir).rows, ∃ r ∈ enroll.rows, ∃ v : Cell,
        r' = r ++ [v] ∧
        ((refPairs plandir).filter (fun rr =>
            decide (getByLabel ["Contract_ID", "Parent_Org"] rr "Contract_ID"
              = getByLabel enroll.cols r "Contract_ID")) = [] →
          v = Cell.s "Independent / Other")) := by
  have hfi : firstIdx enroll.cols "Parent_Org" = none := firstIdx_eq_none.mpr hpo
  have horgB : memB "Org_Name" enroll.cols = true := memB_iff.mpr horg
  have hfallback : (plandir.rows.isEmpty || !memB "Contract_ID" plandir.cols) = true →
      (addParentOrg enroll plandir).rows
        = enroll.rows.map (fun r => r ++ [getByLabel enroll.cols r "Org_Name"]) := by
    intro hc
    simp only [addParentOrg, hc, if_true, setColWith, hfi, horgB]
  have hjoinlen : firstIdx (enroll.cols ++ ["Parent_Org"]) "Parent_Org"
      = some enroll.cols.length := by
    rw [firstIdx_append_right hpo]
    have h0 : firstIdx ["Parent_Org"] "Parent_Org" = some 0 := by simp [firstIdx]
    rw [h0]
    simp
  refine ⟨hfallback, ?_, ?_⟩
  · by_cases hc : (plandir.rows.isEmpty || !memB "Contract_ID" plandir.cols) = true
    · rw [hfallback hc]
      simp
    · have hc' : (plandir.rows.isEmpty || !memB "Contract_ID" plandir.cols) = false := by
        simpa using hc
      simp only [addParentOrg, hc', Bool.false_eq_true, if_false, fillParentNa]
      rw [setColWith_rows_length]
      exact leftMergeParent_rows_length enroll plandir
  · intro hc r' hr'
    simp only [addParentOrg, hc, Bool.false_eq_true, if_false, fillParentNa] at hr'
    have hcols : (leftMergeParent enroll (refPairs plandir)).cols
        = enroll.cols ++ ["Parent_Org"] := rfl
    simp only [setColWith, hcols, hjoinlen] at hr'
    obtain ⟨m, hm, rfl⟩ := List.mem_map.mp hr'
    simp only [leftMergeParent] at hm
    rw [List.mem_flatten] at hm
    obtain ⟨block, hb, hmb⟩ := hm
    obtain ⟨r, hr, rfl⟩ := List.mem_map.mp hb
    have hrlen : r.length = enroll.cols.length := hwf r hr
    cases he : ((refPairs plandir).filter (fun rr =>
        decide (getByLabel ["Contract_ID", "Parent_Org"] rr "Contract_ID"
          = getByLabel enroll.cols r "Contract_ID"))) with
    | nil =>
      rw [he] at hmb
      simp only [List.isEmpty_nil, if_true, List.mem_singleton] at hmb
      subst hmb
      refine ⟨r, hr, Cell.s "Independent / Other", ?_, fun _ => rfl⟩
      have hgl : getByLabel (enroll.cols ++ ["Parent_Org"]) (r ++ [Cell.na]) "Parent_Org"
          = Cell.na := getByLabel_append_last hpo hrlen Cell.na
      rw [hgl]
      rw [← hrlen]
      exact set_append_last r Cell.na (Cell.s "Independent / Other")
    | cons m0 ms0 =>
      rw [he] at hmb
      simp only [List.isEmpty_cons, if_false] at hmb
      obtain ⟨rr, _, rfl⟩ := List.mem_map.mp hmb
      have hgl : getByLabel (enroll.cols ++ ["Parent_Org"])
          (r ++ [getByLabel ["Contract_ID", "Parent_Org"] rr "Parent_Org"]) "Parent_Org"
          = getByLabel ["Contract_ID", "Parent_Org"] rr "Parent_Org" :=
        getByLabel_append_last hpo hrlen _
      rw [hgl]
      refine ⟨r, hr,
        (match getByLabel ["Contract_ID", "Parent_Org"] rr "Parent_Org" with
         | Cell.na => Cell.s "Independent / Other"
         | v => v), ?_, ?_⟩
      · rw [← hrlen]
        exact set_append_last r _ _
      · intro hnil
        rw [hnil] at he
        exact absurd he (by simp)

/-- Witness for add_parent_org_spec: an empty reference table forces the
Org_Name fallback on a two-row enrollment table. -/
theorem add_parent_org_spec_witness :
    (WF (⟨["Org_Name", "Contract_ID"],
        [[Cell.s "O1", Cell.s "H1"], [Cell.s "O2", Cell.s "H2"]]⟩ : DF) ∧
     "Org_Name" ∈ (⟨["Org_Name", "Contract_ID"],
        [[Cell.s "O1", Cell.s "H1"], [Cell.s "O2", Cell.s "H2"]]⟩ : DF).cols ∧
     "Parent_Org" ∉ (⟨["Org_Name", "Contract_ID"],
        [[Cell.s "O1", Cell.s "H1"], [Cell.s "O2", Cell.s "H2"]]⟩ : DF).cols) ∧
    ((((⟨[], []⟩ : DF)).rows.isEmpty || !memB "Contract_ID" ((⟨[], []⟩ : DF)).cols) = true →
      (addParentOrg ⟨["Org_Name", "Contract_ID"],
          [[Cell.s "O1", Cell.s "H1"], [Cell.s "O2", Cell.s "H2"]]⟩ ⟨[], []⟩).rows
        = (⟨["Org_Name", "Contract_ID"],
            [[Cell.s "O1", Cell.s "H1"], [Cell.s "O2", Cell.s "H2"]]⟩ : DF).rows.map
            (fun r => r ++ [getByLabel (⟨["Org_Name", "Contract_ID"],
              [[Cell.s "O1", Cell.s "H1"], [Cell.s "O2", Cell.s "H2"]]⟩ : DF).cols r "Org_Name"])) ∧
    (addParentOrg ⟨["Org_Name", "Contract_ID"],
        [[Cell.s "O1", Cell.s "H1"], [Cell.s "O2", Cell.s "H2"]]⟩ ⟨[], []⟩).rows.length
      = (⟨["Org_Name", "Contract_ID"],
          [[Cell.s "O1", Cell.s "H1"], [Cell.s "O2", Cell.s "H2"]]⟩ : DF).rows.length :=
  ⟨⟨by decide, by decide, by decide⟩,
    (add_parent_org_spec _ _ (by decide) (by decide) (by decide)).1,
    (add_parent_org_spec _ _ (by decide) (by decide) (by decide)).2.1⟩

/- ── C4: state lemmas for the rename-dict construction ── -/

theorem buildRenameGo_append {m : AliasMap} (l₁ l₂ : List String) :
    ∀ ren seen, buildRenameGo m ren seen (l₁ ++ l₂)
      = buildRenameGo m (buildRenameGo m ren seen l₁).1 (buildRenameGo m ren seen l₁).2 l₂ := by
  induction l₁ with
  | nil => intro ren seen; rfl
  | cons c cs ih =>
    intro ren seen
    cases ht : aliasTarget m c with
    | some t =>
      rw [List.cons_append, buildRenameGo_cons_some ht, buildRenameGo_cons_some ht]
      by_cases hm : memB t seen
      · rw [if_pos hm, if_pos hm, ih]
      · rw [if_neg hm, if_neg hm, ih]
    | none =>
      rw [List.cons_append, buildRenameGo_cons_none ht, buildRenameGo_cons_none ht, ih]

theorem buildRenameGo_seen_mono {m : AliasMap} {cs : List String} :
    ∀ {ren seen} {t : String}, t ∈ seen → t ∈ (buildRenameGo m ren seen cs).2 := by
  induction cs with
  | nil => intro ren seen t ht; exact ht
  | cons c cs' ih =>
    intro ren seen t ht
    cases ha : aliasTarget m c with
    | some u =>
      rw [buildRenameGo_cons_some ha]
      by_cases hm : memB u seen
      · rw [if_pos hm]; exact ih ht
      · rw [if_neg hm]; exact ih (by simp [ht])
    | none => rw [buildRenameGo_cons_none ha]; exact ih ht

theorem buildRenameGo_ren_mono {m : AliasMap} {cs : List String} :
    ∀ {ren seen} {p : String × String}, p ∈ ren → p ∈ (buildRenameGo m ren seen cs).1 := by
  induction cs with
  | nil => intro ren seen p hp; exact hp
  | cons c cs' ih =>
    intro ren seen p hp
    cases ha : aliasTarget m c with
    | some u =>
      rw [buildRenameGo_cons_some ha]
      by_cases hm : memB u seen
      · rw [if_pos hm]; exact ih hp
      · rw [if_neg hm]; exact ih (by simp [hp])
    | none => rw [buildRenameGo_cons_none ha]; exact ih hp

/-- If no scanned column resolves to T, T never enters the claimed set. -/
theorem buildRenameGo_seen_no_target {m : AliasMap} {T : String} {cs : List String}
    (hcs : ∀ c ∈ cs, aliasTarget m c ≠ some T) :
    ∀ {ren seen}, T ∉ seen → T ∉ (buildRenameGo m ren seen cs).2 := by
  induction cs with
  | nil => intro ren seen hT; exact hT
  | cons c cs' ih =>
    have hcs' : ∀ c ∈ cs', aliasTarget m c ≠ some T := fun x hx => hcs x (by simp [hx])
    intro ren seen hT
    cases ha : aliasTarget m c with
    | some u =>
      rw [buildRenameGo_cons_some ha]
      by_cases hm : memB u seen
      · rw [if_pos hm]; exact ih hcs' hT
      · rw [if_neg hm]
        refine ih hcs' ?_
        simp only [List.mem_cons, not_or]
        exact ⟨fun he => hcs c (by simp) (he ▸ ha), hT⟩
    | none => rw [buildRenameGo_cons_none ha]; exact ih hcs' hT

/-- The first column resolving to a fresh target claims it: the entry enters
the rename dict and the target enters the claimed set. -/
theorem buildRenameGo_winner {m : AliasMap} {ci T : String} (cs : List String)
    {ren : List (String × String)} {seen : List String}
    (hT : T ∉ seen) (hres : aliasTarget m ci = some T) :
    (ci, T) ∈ (buildRenameGo m ren seen (ci :: cs)).1 ∧
    T ∈ (buildRenameGo m ren seen (ci :: cs)).2 := by
  rw [buildRenameGo_cons_some hres]
  have hm : memB T seen = false := memB_eq_false.mpr hT
  rw [hm]
  simp only [Bool.false_eq_true, if_false]
  exact ⟨buildRenameGo_ren_mono (by simp), buildRenameGo_seen_mono (by simp)⟩

/-- The rename dict never assigns the same column label twice. -/
theorem buildRenameGo_keys_nodup {m : AliasMap} {cs : List String} :
    ∀ {ren : List (String × String)} {seen : List String},
      cs.Nodup → (∀ p ∈ ren, p.1 ∉ cs) → ((ren.map Prod.fst)).Nodup →
      (((buildRenameGo m ren seen cs).1).map Prod.fst).Nodup := by
  induction cs with
  | nil => intro ren seen _ _ h; exact h
  | cons c cs' ih =>
    intro ren seen hnd hdisj hkn
    obtain ⟨hc, hnd'⟩ := List.nodup_cons.mp hnd
    cases ha : aliasTarget m c with
    | some t =>
      rw [buildRenameGo_cons_some ha]
      by_cases hm : memB t seen
      · rw [if_pos hm]
        exact ih hnd' (fun p hp hmem => hdisj p hp (by simp [hmem])) hkn
      · rw [if_neg hm]
        apply ih hnd'
        · intro p hp
          rcases List.mem_append.mp hp with h | h
          · exact fun hmem => hdisj p h (by simp [hmem])
          · simp only [List.mem_singleton] at h
            subst h
            exact hc
        · rw [List.map_append]
          refine List.nodup_append.mpr ⟨hkn, by simp, ?_⟩
          intro a ha2 hb
          simp only [List.map_cons, List.map_nil, List.mem_singleton] at hb
          subst hb
          obtain ⟨p, hp, hp1⟩ := List.mem_map.mp ha2
          exact hdisj p hp (by simp [hp1])
    | none =>
      rw [buildRenameGo_cons_none ha]
      exact ih hnd' (fun p hp h => hdisj p hp (by simp [h])) hkn

/- ── C4 ── -/

/-- C4 (counterexample): with raw columns ["plan_id", "Plan_ID"], both of
which resolve to the target Plan_ID under the CPSC alias map, the later
colliding column does not keep its own (unique) name: its kept name collides
with the renamed winner and the safety net turns it into "Plan_ID_2". -/
theorem first_writer_wins_cex :
    aliasTarget CPSC_COL_ALIASES "plan_id" = some "Plan_ID" ∧
    aliasTarget CPSC_COL_ALIASES "Plan_ID" = some "Plan_ID" ∧
    (dedupLabels ["plan_id", "Plan_ID"]).get? 1 = some "Plan_ID" ∧
    (normaliseCols ⟨["plan_id", "Plan_ID"], [[Cell.s "a", Cell.s "b"]]⟩
        CPSC_COL_ALIASES).cols = ["Plan_ID", "Plan_ID_2"] ∧
    (normaliseCols ⟨["plan_id", "Plan_ID"], [[Cell.s "a", Cell.s "b"]]⟩
        CPSC_COL_ALIASES).cols.get? 1 ≠ some "Plan_ID" := by
  decide

/-- C4 (amended): provided the post-rename labels are already unique (so the
final safety pass is a no-op), the first column resolving to a target T (in
original order) is renamed to T, and a later column resolving to the same T
keeps its dedup'd name cj, which differs from T — hence it is dropped
whenever only canonical columns are selected. -/
theorem first_writer_wins_amended (df : DF) (m : AliasMap) (T ci cj : String)
    (pre mid post : List String)
    (hdec : dedupLabels df.cols = pre ++ (ci :: (mid ++ (cj :: post))))
    (hnd : (dedupLabels df.cols).Nodup)
    (hi : aliasTarget m ci = some T)
    (hj : aliasTarget m cj = some T)
    (hpre : ∀ c ∈ pre, aliasTarget m c ≠ some T)
    (hsafe : (applyRename (buildRename m (dedupLabels df.cols)) (dedupLabels df.cols)).Nodup) :
    ∃ pre' mid' post' : List String,
      (normaliseCols df m).cols = pre' ++ (T :: (mid' ++ (cj :: post'))) ∧
      pre'.length = pre.length ∧ mid'.length = mid.length ∧ cj ≠ T := by
  have hd2 : dedupLabels df.cols = (pre ++ (ci :: mid)) ++ (cj :: post) := by
    rw [hdec]
    simp [List.append_assoc]
  have hnd2 : ((pre ++ (ci :: mid)) ++ (cj :: post)).Nodup := hd2 ▸ hnd
  have hcjpre : cj ∉ pre ++ (ci :: mid) := by
    intro hmem
    exact (List.nodup_append.mp hnd2).2.2 hmem (by simp)
  have hcjpost : cj ∉ post :=
    (List.nodup_cons.mp (List.nodup_append.mp hnd2).2.1).1
  have hTpre : T ∉ (buildRenameGo m [] [] pre).2 :=
    buildRenameGo_seen_no_target hpre (by simp)
  have hciT : (ci, T) ∈ buildRename m (dedupLabels df.cols) := by
    unfold buildRename
    rw [hdec, buildRenameGo_append]
    exact (buildRenameGo_winner (mid ++ (cj :: post)) hTpre hi).1
  have hkeys : ((buildRename m (dedupLabels df.cols)).map Prod.fst).Nodup := by
    unfold buildRename
    exact buildRenameGo_keys_nodup hnd (by simp) (by simp)
  have hlci : alookup (buildRename m (dedupLabels df.cols)) ci = some T :=
    alookup_of_mem_nodup hciT hkeys
  have hTseen1 : T ∈ (buildRenameGo m [] [] (pre ++ (ci :: mid))).2 := by
    rw [buildRenameGo_append]
    exact (buildRenameGo_winner mid hTpre hi).2
  have hlcj : alookup (buildRename m (dedupLabels df.cols)) cj = none := by
    apply alookup_eq_none
    intro p hp hpk
    have hfull : buildRename m (dedupLabels df.cols)
        = (buildRenameGo m (buildRenameGo m [] [] (pre ++ (ci :: mid))).1
            (buildRenameGo m [] [] (pre ++ (ci :: mid))).2 (cj :: post)).1 := by
      unfold buildRename
      rw [hd2, buildRenameGo_append]
    rw [hfull] at hp
    rw [buildRenameGo_cons_some hj, if_pos (memB_iff.mpr hTseen1)] at hp
    rcases buildRenameGo_sound p hp with h | h
    · rcases buildRenameGo_sound p h with h2 | h2
      · simp at h2
      · exact hcjpre (hpk ▸ h2.1)
    · exact hcjpost (hpk ▸ h.1)
  have hmapeq : applyRename (buildRename m (dedupLabels df.cols)) (dedupLabels df.cols)
      = pre.map (fun c => (alookup (buildRename m (dedupLabels df.cols)) c).getD c)
        ++ (T :: (mid.map (fun c => (alookup (buildRename m (dedupLabels df.cols)) c).getD c)
        ++ (cj :: post.map (fun c =>
              (alookup (buildRename m (dedupLabels df.cols)) c).getD c)))) := by
    unfold applyRename
    nth_rewrite 2 [hdec]
    simp [hlci, hlcj]
  have hres : normaliseLabels m df.cols
      = applyRename (buildRename m (dedupLabels df.cols)) (dedupLabels df.cols) := by
    simp only [normaliseLabels]
    rw [hasDup_eq_false_iff.mpr hsafe]
    simp
  have hcjT : cj ≠ T := by
    intro he
    rw [hmapeq, he] at hsafe
    have hcnt := List.nodup_iff_count_le_one.mp hsafe T
    simp [List.count_append, List.count_cons] at hcnt
    omega
  refine ⟨pre.map (fun c => (alookup (buildRename m (dedupLabels df.cols)) c).getD c),
    mid.map (fun c => (alookup (buildRename m (dedupLabels df.cols)) c).getD c),
    post.map (fun c => (alookup (buildRename m (dedupLabels df.cols)) c).getD c),
    ?_, by simp, by simp, hcjT⟩
  show normaliseLabels m df.cols = _
  rw [hres, hmapeq]

/-- Witness for first_writer_wins_amended: "Plan ID" and "plan_identifier"
both alias to Plan_ID; the first supplies the values under Plan_ID and the
second keeps its raw name. -/
theorem first_writer_wins_amended_witness :
    (dedupLabels ["Plan ID", "plan_identifier", "County"]
        = [] ++ ("Plan ID" :: ([] ++ ("plan_identifier" :: ["County"]))) ∧
     (dedupLabels ["Plan ID", "plan_identifier", "County"]).Nodup ∧
     aliasTarget CPSC_COL_ALIASES "Plan ID" = some "Plan_ID" ∧
     aliasTarget CPSC_COL_ALIASES "plan_identifier" = some "Plan_ID" ∧
     (∀ c ∈ ([] : List String), aliasTarget CPSC_COL_ALIASES c ≠ some "Plan_ID") ∧
     (applyRename (buildRename CPSC_COL_ALIASES
         (dedupLabels ["Plan ID", "plan_identifier", "County"]))
       (dedupLabels ["Plan ID", "plan_identifier", "County"])).Nodup) ∧
    (∃ pre' mid' post' : List String,
      (normaliseCols ⟨["Plan ID", "plan_identifier", "County"],
          [[Cell.s "a", Cell.s "b", Cell.s "c"]]⟩ CPSC_COL_ALIASES).cols
        = pre' ++ ("Plan_ID" :: (mid' ++ ("plan_identifier" :: post'))) ∧
      pre'.length = ([] : List String).length ∧
      mid'.length = ([] : List String).length ∧
      "plan_identifier" ≠ "Plan_ID") :=
  ⟨⟨by decide, by decide, by decide, by decide, by decide, by decide⟩,
    first_writer_wins_amended _ CPSC_COL_ALIASES "Plan_ID" "Plan ID" "plan_identifier"
      [] [] ["County"] (by decide) (by decide) (by decide) (by decide) (by decide)
      (by decide)⟩

end MA
